import Mathlib

/-!
Shallow embedding of `memtrace-log-view` (`src/main.rs`): a one-pass scanner
that turns a memtrace heap-profiler log into a DataViewer document (chart
metadata plus flat alternating x,y sample sequences).

Modelling conventions:
* `f64` sample values are modelled as exact rationals; every sample value a
  theorem below inspects is produced by the divisions `/3600.0` and `/1000.0`
  at inputs where `f64` arithmetic is exact.
* `u32`/`u64` fields are `Nat`; wrap-around would need more than `2^32`
  distinct callstacks (resp. `2^64`-digit counts) in one log and aborts a
  debug build rather than wrapping, so it is not modelled.
* the Rust `HashMap`s are association lists in insertion order; only
  `get`/`entry`/`insert` semantics are used by the program.
* fatal outcomes (`?`-propagated `eyre` errors and `unwrap` panics) are
  `Except.error`: either way the run aborts before writing any document.
-/

namespace Memtrace

instance {ε α : Type} [DecidableEq ε] [DecidableEq α] : DecidableEq (Except ε α) := fun x y =>
  match x, y with
  | .error a, .error b =>
    if h : a = b then .isTrue (by rw [h]) else .isFalse (fun hh => h (by cases hh; rfl))
  | .error _, .ok _ => .isFalse (fun hh => by cases hh)
  | .ok _, .error _ => .isFalse (fun hh => by cases hh)
  | .ok a, .ok b =>
    if h : a = b then .isTrue (by rw [h]) else .isFalse (fun hh => h (by cases hh; rfl))

/-- Greedy digit run at the head of a character list: the `\d+` step of the
Rust `regex` patterns, returning the run and the remainder. -/
def takeDigits : List Char → List Char × List Char
  | [] => ([], [])
  | c :: cs =>
    if c.isDigit then
      let (d, r) := takeDigits cs
      (c :: d, r)
    else ([], c :: cs)

/-- Literal matcher: drops the expected characters `lit` from the head of
`cs`, failing on the first mismatch.  This is the fixed-text step of the
regexes and of Rust's `str::strip_prefix`. -/
def dropLit : List Char → List Char → Option (List Char)
  | [], cs => some cs
  | _ :: _, [] => none
  | l :: ls, c :: cs => if c = l then dropLit ls cs else none

def digitVal (c : Char) : Nat := c.toNat - 48

/-- Decimal value of a digit run: `str::parse` on a captured `\d+` group. -/
def digitsToNat (ds : List Char) : Nat := ds.foldl (fun a c => 10 * a + digitVal c) 0

/-- One anchored attempt of the regex `(\d+) allocs, (\d+) bytes were not free`
at the head of `cs`.  The digit runs are taken greedily; backtracking a run
can never help because the following literal starts with a space, so this is
exactly the regex engine's behaviour at one start position. -/
def matchAt (cs : List Char) : Option (Nat × Nat) :=
  if (takeDigits cs).1.isEmpty then none
  else
    (dropLit " allocs, ".data (takeDigits cs).2).bind fun r2 =>
      if (takeDigits r2).1.isEmpty then none
      else
        (dropLit " bytes were not free".data (takeDigits r2).2).map fun _ =>
          (digitsToNat (takeDigits cs).1, digitsToNat (takeDigits r2).1)

/-- Leftmost-first search with `matchAt`: `Regex::captures` tries successive
start positions and returns the first success. -/
def findHeader : List Char → Option (Nat × Nat)
  | [] => none
  | c :: cs => (matchAt (c :: cs)).orElse fun _ => findHeader cs

/-- `memcontext_regex.captures(&line)` with both digit groups parsed:
`some (allocs, bytes)` on a context-header line. -/
def headerMatch (line : String) : Option (Nat × Nat) := findHeader line.data

/-- One anchored attempt of the regex `(\d+) bytes` used by
`add_inuse_summary`. -/
def bytesAt (cs : List Char) : Option Nat :=
  if (takeDigits cs).1.isEmpty then none
  else (dropLit " bytes".data (takeDigits cs).2).map fun _ => digitsToNat (takeDigits cs).1

/-- Leftmost-first search with `bytesAt`. -/
def findBytes : List Char → Option Nat
  | [] => none
  | c :: cs => (bytesAt (c :: cs)).orElse fun _ => findBytes cs

/-- Leading whitespace skip: chrono's `Item::Space`, produced for the blanks
of the format string. -/
def skipWs : List Char → List Char
  | [] => []
  | c :: cs => if c.isWhitespace then skipWs cs else c :: cs

/-- At most `k` leading digits (chrono reads fixed-width numeric fields
greedily up to their width). -/
def takeUpTo : Nat → List Char → List Char × List Char
  | 0, cs => ([], cs)
  | _ + 1, [] => ([], [])
  | k + 1, c :: cs =>
    if c.isDigit then (c :: (takeUpTo k cs).1, (takeUpTo k cs).2)
    else ([], c :: cs)

/-- A one-or-two digit numeric field (`%d`, `%H`, `%M`, `%S`). -/
def num2 (cs : List Char) : Option (Nat × List Char) :=
  if (takeUpTo 2 cs).1.isEmpty then none
  else some (digitsToNat (takeUpTo 2 cs).1, (takeUpTo 2 cs).2)

/-- First name of the list matching at the head of `cs`, with its index. -/
def matchNameAux : List String → Nat → List Char → Option (Nat × List Char)
  | [], _, _ => none
  | n :: ns, i, cs =>
    match dropLit n.data cs with
    | some r => some (i, r)
    | none => matchNameAux ns (i + 1) cs

def weekdayNames : List String := ["Sun", "Mon", "Tue", "Wed", "Thu", "Fri", "Sat"]

def monthNames : List String :=
  ["Jan", "Feb", "Mar", "Apr", "May", "Jun", "Jul", "Aug", "Sep", "Oct", "Nov", "Dec"]

def isLeap (y : Nat) : Bool := y % 4 == 0 && (y % 100 != 0 || y % 400 == 0)

def daysInMonth (y m : Nat) : Nat :=
  if m == 2 then (if isLeap y then 29 else 28)
  else if m == 4 || m == 6 || m == 9 || m == 11 then 30
  else 31

/-- Civil-calendar day count relative to 1970-01-01 (Howard Hinnant's
`days_from_civil`, the arithmetic chrono uses to turn a date into a Unix
day number). -/
def daysFromCivil (y : Int) (m d : Nat) : Int :=
  let y' : Int := if m ≤ 2 then y - 1 else y
  let era : Int := (if 0 ≤ y' then y' else y' - 399) / 400
  let yoe : Int := y' - era * 400
  let mp : Nat := (m + 9) % 12
  let doy : Nat := (153 * mp + 2) / 5 + (d - 1)
  let doe : Int := yoe * 365 + yoe / 4 - yoe / 100 + (doy : Int)
  era * 146097 + doe - 719468

/-- Model of `chrono::NaiveDateTime::parse_from_str(s, "%a %b %d %H:%M:%S %Y")`
followed by `.and_utc().timestamp()`.  Names are matched exactly (chrono is
additionally case-insensitive), numeric fields read one or two digits, `%Y` a
digit run, whitespace separators are skipped, the whole input must be
consumed, and field ranges plus the weekday/date consistency enforced by
chrono's `Parsed::to_naive_datetime` are checked (leap seconds rejected).
No theorem below depends on more than success/failure and the timestamp
values of well-formed canonical dates. -/
def parse_from_str (s : String) : Option Int :=
  (matchNameAux weekdayNames 0 s.data).bind fun wd =>
  (matchNameAux monthNames 0 (skipWs wd.2)).bind fun mo =>
  (num2 (skipWs mo.2)).bind fun d =>
  (num2 (skipWs d.2)).bind fun h =>
  (dropLit ":".data h.2).bind fun r5 =>
  (num2 r5).bind fun mi =>
  (dropLit ":".data mi.2).bind fun r7 =>
  (num2 r7).bind fun sec =>
  if (takeDigits (skipWs sec.2)).1.isEmpty then none
  else if !(takeDigits (skipWs sec.2)).2.isEmpty then none
  else
    let y := digitsToNat (takeDigits (skipWs sec.2)).1
    if d.1 == 0 || daysInMonth y (mo.1 + 1) < d.1 then none
    else if 23 < h.1 || 59 < mi.1 || 59 < sec.1 then none
    else
      let days := daysFromCivil (y : Int) (mo.1 + 1) d.1
      if (days + 4) % 7 ≠ (wd.1 : Int) then none
      else some (days * 86400 + (h.1 : Int) * 3600 + (mi.1 : Int) * 60 + (sec.1 : Int))

/-- The Rust `enum Type { XY, Line }` (renamed: `Type` is a Lean keyword). -/
inductive PlotType where
  | XY
  | Line
  deriving DecidableEq, Repr

/-- `struct DataView` (the Rust `r#type` field is `ty` here). -/
structure DataView where
  ty : PlotType := .XY
  title : Option String := none
  x_title : Option String := none
  y_title : Option String := none
  x_unit : Option String := none
  y_unit : Option String := none
  x_min : Option ℚ := none
  x_max : Option ℚ := none
  y_min : Option ℚ := none
  y_max : Option ℚ := none
  description : Option String := none
  deriving DecidableEq, Repr

/-- `struct Chart`. -/
structure Chart where
  title : Option String := none
  description : Option String := none
  deriving DecidableEq, Repr

/-- `struct Info`: the identity registry. -/
structure Info where
  uid_count : Nat := 0
  uids : List (String × Nat) := []
  deriving DecidableEq, Repr

/-- `struct Memcontext`. -/
structure Memcontext where
  allocs : Nat := 0
  bytes : Nat := 0
  callstack : String := ""
  deriving DecidableEq, Repr

/-- `struct DataViewer`: the output document plus the (unserialized) registry. -/
structure DataViewer where
  dataview : DataView := {}
  chart : List (String × Chart) := []
  data : List (String × List ℚ) := []
  info : Info := {}
  deriving DecidableEq, Repr

/-- `HashMap::get`. -/
def alLookup {α : Type} : List (String × α) → String → Option α
  | [], _ => none
  | (k, v) :: t, key => if k == key then some v else alLookup t key

/-- `HashMap::insert` (replaces an existing binding, otherwise appends). -/
def alInsert {α : Type} : List (String × α) → String → α → List (String × α)
  | [], key, v => [(key, v)]
  | (k, w) :: t, key, v => if k == key then (key, v) :: t else (k, w) :: alInsert t key v

/-- `data.entry(key).or_insert_with(|| vec![])` followed by `push(x); push(y)`. -/
def alPush2 : List (String × List ℚ) → String → ℚ → ℚ → List (String × List ℚ)
  | [], key, x, y => [(key, [x, y])]
  | (k, v) :: t, key, x, y =>
    if k == key then (k, v ++ [x, y]) :: t else (k, v) :: alPush2 t key x y

/-- Little-endian decimal digits of `n`, with explicit fuel so that the kernel
can evaluate it (the fuel `n + 1` always suffices). -/
def toDecimalGo : Nat → Nat → List Char
  | _, 0 => []
  | n, fuel + 1 =>
    if n < 10 then [Char.ofNat (48 + n)]
    else Char.ofNat (48 + n % 10) :: toDecimalGo (n / 10) fuel

/-- `format!("{}", n)`: the decimal rendering of a uid used as series key. -/
def natKey (n : Nat) : String := ⟨(toDecimalGo n (n + 1)).reverse⟩

/-- `DataViewer::new`. -/
def DataViewer.new : DataViewer :=
  { dataview :=
      { ty := .XY
        title := some "History of memory usage with Memtrace"
        x_title := some "Elapsed Time"
        x_unit := some "Hour"
        y_title := some "Memory in use"
        y_unit := some "KBytes" }
    chart := [("inuse", { title := some "Total HEAP Memory in use" })]
    data := []
    info := {} }

/-- `DataViewer::add_inuse_summary`.  The `captures(inuse).unwrap()` panic on
a remainder without a `(\d+) bytes` group is `none`; `parse::<f64>` of a digit
run cannot fail.  Pushes `elapsed_sec / 3600` then `bytes / 1000` onto the
series keyed `"inuse"`. -/
def add_inuse_summary (dv : DataViewer) (elapsed_sec : Int) (inuse : String) :
    Option DataViewer :=
  match findBytes inuse.data with
  | none => none
  | some bytes =>
    let kbytes : ℚ := Rat.divInt (bytes : Int) 1000
    let elapsed_hour : ℚ := Rat.divInt elapsed_sec 3600
    some { dv with data := alPush2 dv.data "inuse" elapsed_hour kbytes }

/-- `DataViewer::add_memcontext`.  The `info.uids.entry(callstack)
.or_insert_with(..)` closure increments `uid_count`, registers the chart
metadata for the fresh uid, and binds the callstack to it; in both cases the
two samples are then pushed onto the series keyed by the decimal uid. -/
def add_memcontext (dv : DataViewer) (elapsed_sec : Int) (mc : Memcontext) : DataViewer :=
  let elapsed_hour : ℚ := Rat.divInt elapsed_sec 3600
  let kbytes : ℚ := Rat.divInt (mc.bytes : Int) 1000
  match alLookup dv.info.uids mc.callstack with
  | some uid =>
    { dv with data := alPush2 dv.data (natKey uid) elapsed_hour kbytes }
  | none =>
    let uid := dv.info.uid_count + 1
    let c : Chart :=
      { title := some ("Memory Context with UID:" ++ natKey uid)
        description := some mc.callstack }
    { dv with
      info := { uid_count := uid, uids := dv.info.uids ++ [(mc.callstack, uid)] }
      chart := alInsert dv.chart (natKey uid) c
      data := alPush2 dv.data (natKey uid) elapsed_hour kbytes }

/-- `DataViewer::add_memcontexts`. -/
def add_memcontexts (dv : DataViewer) (elapsed_sec : Int) (mcs : List Memcontext) : DataViewer :=
  mcs.foldl (fun d m => add_memcontext d elapsed_sec m) dv

/-- The mutable locals of `main`'s scan loop. -/
structure ScanState where
  dv : DataViewer := DataViewer.new
  memcontext : Memcontext := {}
  memcontexts : List Memcontext := []
  in_memcontext : Bool := false
  timestamp : Int := 0
  min_ts : Int := 0
  deriving DecidableEq, Repr

/-- The `if let Some(date) = line.strip_prefix("HEAP SUMMARY ")` check of the
loop body; a date-parse failure is the `?`-propagated `eyre` error, wrapped
with the offending text. -/
def heapStep (s : ScanState) (line : String) : Except String ScanState :=
  match dropLit "HEAP SUMMARY ".data line.data with
  | some rest =>
    match parse_from_str ⟨rest⟩ with
    | some ts =>
      .ok { s with timestamp := ts, min_ts := if s.min_ts == 0 then ts else s.min_ts }
    | none => .error ("Error parsing '" ++ (⟨rest⟩ : String) ++ "'")
  | none => .ok s

/-- The `if let Some(inuse) = line.strip_prefix("    in use: ")` check of the
loop body: record the aggregate sample, flush the pending contexts at the same
elapsed time, and clear the pending list.  A missing byte group is the
`unwrap` panic. -/
def inuseStep (s : ScanState) (line : String) : Except String ScanState :=
  match dropLit "    in use: ".data line.data with
  | some rest =>
    match add_inuse_summary s.dv (s.timestamp - s.min_ts) ⟨rest⟩ with
    | some dv₁ =>
      .ok { s with
            dv := add_memcontexts dv₁ (s.timestamp - s.min_ts) s.memcontexts
            memcontexts := [] }
    | none => .error "called Option::unwrap() on a None value"
  | none => .ok s

/-- The two trailing prefix checks of the loop body, reached unless the line
was consumed as block body (`continue`). -/
def heapInuse (s : ScanState) (line : String) : Except String ScanState :=
  match heapStep s line with
  | .ok s₁ => inuseStep s₁ line
  | .error e => .error e

/-- One iteration of `main`'s `for line in lines` loop: the header regex is
tried first; otherwise an open block consumes the line as body (appending it
plus a newline, and on a blank line emitting the block) and `continue`s; in
all other cases control falls through to the two prefix checks — note that a
header-matched line falls through as well. -/
def step (s : ScanState) (line : String) : Except String ScanState :=
  match headerMatch line with
  | some (a, b) =>
    heapInuse
      { s with
        memcontext := { s.memcontext with allocs := a, bytes := b }
        in_memcontext := true }
      line
  | none =>
    if s.in_memcontext then
      let cs := s.memcontext.callstack ++ line ++ "\n"
      if line == "" then
        .ok { s with
              memcontext := {}
              memcontexts := s.memcontexts ++ [{ s.memcontext with callstack := cs }]
              in_memcontext := false }
      else
        .ok { s with memcontext := { s.memcontext with callstack := cs } }
    else heapInuse s line

/-- The scan loop run from an arbitrary state. -/
def scanFrom (s : ScanState) : List String → Except String ScanState
  | [] => .ok s
  | line :: rest =>
    match step s line with
    | .ok s' => scanFrom s' rest
    | .error e => .error e

/-- The whole scan of `main` over the input's lines, from the initial state. -/
def scanSt (lines : List String) : Except String ScanState := scanFrom {} lines

/-- The document `main` hands to `DataViewer::write` — produced only when no
line aborted the run. -/
def scan (lines : List String) : Except String DataViewer :=
  match scanSt lines with
  | .ok s => .ok s.dv
  | .error e => .error e

/-! ### Structural lemmas about one loop iteration -/

theorem heapStep_fields {s s' : ScanState} {l : String} (h : heapStep s l = .ok s') :
    s'.dv = s.dv ∧ s'.memcontext = s.memcontext ∧ s'.memcontexts = s.memcontexts ∧
      s'.in_memcontext = s.in_memcontext := by
  unfold heapStep at h
  split at h
  · split at h
    · cases h; exact ⟨rfl, rfl, rfl, rfl⟩
    · exact Except.noConfusion h
  · cases h; exact ⟨rfl, rfl, rfl, rfl⟩

theorem heapStep_of_none {s : ScanState} {l : String}
    (h : dropLit "HEAP SUMMARY ".data l.data = none) : heapStep s l = .ok s := by
  unfold heapStep; rw [h]

theorem inuseStep_fields {s s' : ScanState} {l : String} (h : inuseStep s l = .ok s') :
    s'.memcontext = s.memcontext ∧ s'.in_memcontext = s.in_memcontext ∧
      s'.timestamp = s.timestamp ∧ s'.min_ts = s.min_ts := by
  unfold inuseStep at h
  split at h
  · split at h
    · cases h; exact ⟨rfl, rfl, rfl, rfl⟩
    · exact Except.noConfusion h
  · cases h; exact ⟨rfl, rfl, rfl, rfl⟩

theorem inuseStep_of_none {s : ScanState} {l : String}
    (h : dropLit "    in use: ".data l.data = none) : inuseStep s l = .ok s := by
  unfold inuseStep; rw [h]

theorem heapInuse_fields {s s' : ScanState} {l : String} (h : heapInuse s l = .ok s') :
    s'.memcontext = s.memcontext ∧ s'.in_memcontext = s.in_memcontext := by
  unfold heapInuse at h
  cases hh : heapStep s l with
  | error e => rw [hh] at h; cases h
  | ok s₁ =>
    rw [hh] at h
    obtain ⟨-, h2, -, h4⟩ := heapStep_fields hh
    obtain ⟨i1, i2, -, -⟩ := inuseStep_fields h
    exact ⟨i1.trans h2, i2.trans h4⟩

theorem heapInuse_of_none {s : ScanState} {l : String}
    (hh : dropLit "HEAP SUMMARY ".data l.data = none)
    (hi : dropLit "    in use: ".data l.data = none) : heapInuse s l = .ok s := by
  unfold heapInuse; rw [heapStep_of_none hh]; exact inuseStep_of_none hi

/-! ### C3 -/

/-- C3, as stated, is false on the code: a context-header line initializes
`allocs`/`bytes` from the captured digits and opens a block, but it does NOT
reset `current.callstack`; the callstack is reset only when a block is
terminated by a blank line (and at program start).  Concretely, after
scanning a header, one body line `"x"`, and then a second header while the
first block is still open, the accumulator's callstack is `"x\n"`, not `""`. -/
theorem c3_counterexample :
    (scanSt ["1 allocs, 2 bytes were not free", "x",
        "3 allocs, 4 bytes were not free"]).map
        (fun s => (s.in_memcontext, s.memcontext.allocs, s.memcontext.bytes,
          s.memcontext.callstack)) =
      .ok (true, 3, 4, "x\n") ∧ ("x\n" : String) ≠ "" := by
  exact ⟨by decide, by decide⟩

/-- C3 amended: on a header match the accumulator initializes
`current.allocs` and `current.bytes` from the captured digits and sets
`in_block`, but leaves `current.callstack` unchanged (it is empty at that
point only if no block was left open, because resets happen at block
termination and at start). -/
theorem c3_header_no_reset {s s' : ScanState} {l : String} {a b : Nat}
    (h : headerMatch l = some (a, b)) (hok : step s l = .ok s') :
    s'.memcontext.allocs = a ∧ s'.memcontext.bytes = b ∧
      s'.memcontext.callstack = s.memcontext.callstack ∧ s'.in_memcontext = true := by
  unfold step at hok
  rw [h] at hok
  obtain ⟨hm, hi⟩ := heapInuse_fields hok
  rw [hm, hi]
  exact ⟨rfl, rfl, rfl, rfl⟩

/-- Witness for the amendment of C3 at a concrete input: a header arriving
while a block is open keeps the accumulated callstack `"x\n"`. -/
theorem c3_header_no_reset_witness :
    step { memcontext := { allocs := 1, bytes := 2, callstack := "x\n" },
           in_memcontext := true }
        "3 allocs, 4 bytes were not free" =
      .ok { memcontext := { allocs := 3, bytes := 4, callstack := "x\n" },
            in_memcontext := true } ∧
    ({ allocs := 3, bytes := 4, callstack := "x\n" } : Memcontext).callstack = "x\n" := by
  refine ⟨by decide, ?_⟩
  have h := c3_header_no_reset
    (by decide : headerMatch "3 allocs, 4 bytes were not free" = some (3, 4))
    (by decide : step
        { memcontext := { allocs := 1, bytes := 2, callstack := "x\n" },
          in_memcontext := true }
        "3 allocs, 4 bytes were not free" =
      .ok { memcontext := { allocs := 3, bytes := 4, callstack := "x\n" },
            in_memcontext := true })
  exact h.2.2.1

/-! ### C4 -/

/-- C4, as stated, is false on the code: the header branch does not `continue`,
so a header-matched line falls through to the two prefix checks.  Concretely,
the line `"    in use: 1 allocs, 2 bytes were not free"` matches the
memory-context-header pattern, and scanning just that line both opens a block
(processed as a header) and appends an in-use sample `[0, 2/1000]` (processed
as an in-use-summary line in the same iteration). -/
theorem c4_counterexample :
    (headerMatch "    in use: 1 allocs, 2 bytes were not free") = some (1, 2) ∧
    (scanSt ["    in use: 1 allocs, 2 bytes were not free"]).map
        (fun s => (s.in_memcontext, alLookup s.dv.data "inuse")) =
      .ok (true, some [0, Rat.divInt 2 1000]) ∧
    (some [0, Rat.divInt 2 1000] : Option (List ℚ)) ≠ none := by
  exact ⟨by decide, by decide, by decide⟩

/-- C4 amended: only block-body consumption is exclusive.  A header-matched
line is processed as a header and additionally falls through to the
snapshot-timestamp and in-use-summary checks; it is processed only as a
header exactly when it carries neither the `"HEAP SUMMARY "` nor the
`"    in use: "` prefix, in which case the iteration changes nothing but the
accumulator. -/
theorem c4_header_falls_through {s : ScanState} {l : String} {a b : Nat}
    (h : headerMatch l = some (a, b))
    (hh : dropLit "HEAP SUMMARY ".data l.data = none)
    (hi : dropLit "    in use: ".data l.data = none) :
    step s l =
      .ok { s with
            memcontext := { s.memcontext with allocs := a, bytes := b }
            in_memcontext := true } := by
  unfold step
  rw [h]
  exact heapInuse_of_none hh hi

/-- Witness for the amendment of C4 at a concrete header line. -/
theorem c4_header_falls_through_witness :
    step {} "7 allocs, 50 bytes were not free" =
      .ok { memcontext := { allocs := 7, bytes := 50, callstack := "" },
            in_memcontext := true } := by
  exact c4_header_falls_through (s := {})
    (by decide : headerMatch "7 allocs, 50 bytes were not free" = some (7, 50))
    (by decide) (by decide)

/-! ### C5 -/

/-- C5, as stated, is false on the code: the blank terminator line is itself
appended (plus a newline) to the callstack before the block is emitted, so
the block whose body lines are `"foo"` and `"bar"` is stored with callstack
`"foo\nbar\n\n"`, and the chart entry keyed `"1"` carries that description,
not `"foo\nbar\n"`. -/
theorem c5_counterexample :
    (scanSt ["3 allocs, 2000 bytes were not free", "foo", "bar", "",
        "    in use: 5000 bytes"]).map
        (fun s => alLookup s.dv.chart "1") =
      .ok (some { title := some "Memory Context with UID:1",
                  description := some "foo\nbar\n\n" }) ∧
    (some { title := some "Memory Context with UID:1",
            description := some "foo\nbar\n\n" } : Option Chart) ≠
      some { title := some "Memory Context with UID:1",
             description := some "foo\nbar\n" } := by
  exact ⟨by decide, by decide⟩

/-- C5 amended: the scenario's block yields the chart entry keyed `"1"` with
description `"foo\nbar\n\n"` (the terminating blank line is appended too) and
data `[elapsed_hours, 2.0]` — here the log has no timestamp line, so the
elapsed time is `0` hours. -/
theorem c5_block_chart_and_data :
    (scanSt ["3 allocs, 2000 bytes were not free", "foo", "bar", "",
        "    in use: 5000 bytes"]).map
        (fun s => (alLookup s.dv.chart "1", alLookup s.dv.data "1")) =
      .ok (some { title := some "Memory Context with UID:1",
                  description := some "foo\nbar\n\n" },
           some [0, 2]) := by
  decide

/-! ### C7 -/

/-- C7: while a block is open and the line does not match the header pattern,
the line is consumed as block body and never dispatched to the
snapshot-timestamp or in-use-summary branches: the iteration succeeds (even a
malformed `"HEAP SUMMARY ..."` body line cannot abort the run), the document,
the timestamp and the baseline are unchanged, and the line plus a newline is
appended to the open callstack. -/
theorem c7_body_is_exclusive {s : ScanState} {l : String}
    (hin : s.in_memcontext = true) (hh : headerMatch l = none) :
    ∃ s', step s l = .ok s' ∧ s'.dv = s.dv ∧ s'.timestamp = s.timestamp ∧
      s'.min_ts = s.min_ts ∧
      (l = "" → s'.memcontexts =
        s.memcontexts ++ [{ s.memcontext with
          callstack := s.memcontext.callstack ++ l ++ "\n" }] ∧ s'.in_memcontext = false) ∧
      (l ≠ "" → s'.memcontext.callstack = s.memcontext.callstack ++ l ++ "\n" ∧
        s'.in_memcontext = true) := by
  unfold step
  rw [hh, hin]
  simp only [if_true]
  by_cases hl : l = ""
  · subst hl
    exact ⟨_, rfl, rfl, rfl, rfl, fun _ => ⟨rfl, rfl⟩, fun hne => absurd rfl hne⟩
  · rw [if_neg (by simpa using hl)]
    exact ⟨_, rfl, rfl, rfl, rfl, fun he => absurd he hl, fun _ => ⟨rfl, rfl⟩⟩

/-- Witness for C7 at a concrete input: inside a block, even a line carrying
the `"HEAP SUMMARY "` prefix with an unparsable date is consumed as body. -/
theorem c7_body_is_exclusive_witness :
    ∃ s', step { in_memcontext := true } "HEAP SUMMARY garbage" = .ok s' ∧
      s'.dv = ({ in_memcontext := true } : ScanState).dv ∧
      s'.timestamp = 0 ∧ s'.min_ts = 0 ∧
      ("HEAP SUMMARY garbage" = "" → s'.memcontexts =
        [] ++ [{ ({} : Memcontext) with
          callstack := "" ++ "HEAP SUMMARY garbage" ++ "\n" }] ∧ s'.in_memcontext = false) ∧
      ("HEAP SUMMARY garbage" ≠ "" →
        s'.memcontext.callstack = "" ++ "HEAP SUMMARY garbage" ++ "\n" ∧
        s'.in_memcontext = true) := by
  exact c7_body_is_exclusive (s := { in_memcontext := true }) rfl (by decide)

/-! ### C9 -/

theorem heapInuse_no_inuse {s : ScanState} {l : String}
    (hi : dropLit "    in use: ".data l.data = none) :
    heapInuse s l = heapStep s l := by
  unfold heapInuse
  cases hh : heapStep s l with
  | ok s₁ => exact inuseStep_of_none hi
  | error e => rfl

theorem step_dv_of_no_inuse {s t : ScanState} {l : String}
    (hi : dropLit "    in use: ".data l.data = none) (h : step s l = .ok t) :
    t.dv = s.dv := by
  unfold step at h
  cases hm : headerMatch l with
  | some ab =>
    obtain ⟨a, b⟩ := ab
    rw [hm] at h
    dsimp only at h
    rw [heapInuse_no_inuse hi] at h
    exact (heapStep_fields h).1
  | none =>
    rw [hm] at h
    dsimp only at h
    by_cases hin : s.in_memcontext = true
    · rw [if_pos hin] at h
      split at h
      · cases h; rfl
      · cases h; rfl
    · rw [if_neg hin, heapInuse_no_inuse hi] at h
      exact (heapStep_fields h).1

/-- C9: at end of input, a dangling open block and pending completed contexts
never followed by an in-use-summary line contribute nothing: as long as no
remaining line carries the `"    in use: "` prefix, the document (charts,
data, and the uid registry) is exactly what it was before those lines, so no
uid is assigned, no chart entry created, and no sample appended. -/
theorem c9_trailing_lines_contribute_nothing {s s' : ScanState} {extra : List String}
    (hno : ∀ l ∈ extra, dropLit "    in use: ".data l.data = none)
    (hok : scanFrom s extra = .ok s') : s'.dv = s.dv := by
  induction extra generalizing s with
  | nil => cases hok; rfl
  | cons l ls ih =>
    unfold scanFrom at hok
    cases hs : step s l with
    | error e => rw [hs] at hok; exact Except.noConfusion hok
    | ok t =>
      rw [hs] at hok
      have h1 := step_dv_of_no_inuse (hno l (by simp)) hs
      have h2 := ih (fun x hx => hno x (by simp [hx])) hok
      rw [h2, h1]

/-- Witness for C9 at a concrete input: a dangling open block at end of input
leaves the document untouched. -/
theorem c9_trailing_lines_contribute_nothing_witness :
    (scanFrom {} ["3 allocs, 9 bytes were not free", "stackline"]).map (·.dv) =
      .ok DataViewer.new := by
  have hok : scanFrom {} ["3 allocs, 9 bytes were not free", "stackline"] =
      .ok { dv := DataViewer.new
            memcontext := { allocs := 3, bytes := 9, callstack := "stackline\n" }
            memcontexts := []
            in_memcontext := true
            timestamp := 0
            min_ts := 0 } := by decide
  have h := c9_trailing_lines_contribute_nothing (by decide) hok
  rw [hok]
  exact congrArg (fun d => (Except.ok d : Except String DataViewer)) h

/-! ### C8 -/

theorem scanFrom_cons (s : ScanState) (l : String) (r : List String) :
    scanFrom s (l :: r) =
      match step s l with
      | .ok t => scanFrom t r
      | .error e => .error e := rfl

theorem scanFrom_append (s : ScanState) (xs ys : List String) :
    scanFrom s (xs ++ ys) =
      match scanFrom s xs with
      | .ok t => scanFrom t ys
      | .error e => .error e := by
  induction xs generalizing s with
  | nil => rfl
  | cons l ls ih =>
    rw [List.cons_append, scanFrom_cons, scanFrom_cons]
    cases step s l with
    | ok t => exact ih t
    | error e => rfl

/-- C8: a snapshot-timestamp line whose date does not parse aborts the whole
run with an error naming the offending raw text, and the scan yields no
document; a line matching no category (no header match, no open block, no
recognized prefix) is ignored: the iteration returns the state unchanged,
without error. -/
theorem c8_date_error_and_ignored_lines {s : ScanState} {l : String}
    (hnh : headerMatch l = none) (hnb : s.in_memcontext = false) :
    (∀ rest : List Char, dropLit "HEAP SUMMARY ".data l.data = some rest →
      parse_from_str ⟨rest⟩ = none →
      step s l = .error ("Error parsing '" ++ (⟨rest⟩ : String) ++ "'") ∧
      ∀ pre post : List String, scanFrom {} pre = .ok s →
        scan (pre ++ l :: post) = .error ("Error parsing '" ++ (⟨rest⟩ : String) ++ "'")) ∧
    (dropLit "HEAP SUMMARY ".data l.data = none →
      dropLit "    in use: ".data l.data = none → step s l = .ok s) := by
  constructor
  · intro rest hd hp
    have hstep : step s l = .error ("Error parsing '" ++ (⟨rest⟩ : String) ++ "'") := by
      unfold step
      rw [hnh]
      dsimp only
      rw [if_neg (by simp [hnb])]
      unfold heapInuse heapStep
      rw [hd]
      dsimp only
      rw [hp]
    refine ⟨hstep, fun pre post hpre => ?_⟩
    unfold scan scanSt
    rw [scanFrom_append, hpre]
    dsimp only
    rw [scanFrom_cons, hstep]
  · intro hh hi
    unfold step
    rw [hnh, if_neg (by simp [hnb])]
    exact heapInuse_of_none hh hi

/-- Witness for C8 at concrete inputs: `"HEAP SUMMARY garbage"` aborts the
scan with an error naming `garbage` and no document, while an unclassified
line leaves the initial state untouched. -/
theorem c8_date_error_and_ignored_lines_witness :
    scan [] = .ok DataViewer.new ∧
    scan ["HEAP SUMMARY garbage"] = .error ("Error parsing '" ++ "garbage" ++ "'") ∧
    step {} "some ordinary log line" = .ok {} := by
  refine ⟨by decide, ?_, ?_⟩
  · have h := (c8_date_error_and_ignored_lines (s := {})
      (l := "HEAP SUMMARY garbage") (by decide) rfl).1 "garbage".data
      (by decide) (by decide)
    exact h.2 [] [] rfl
  · exact (c8_date_error_and_ignored_lines (s := {})
      (l := "some ordinary log line") (by decide) rfl).2 (by decide) (by decide)

/-! ### C2 -/

theorem toDecimalGo_digits {f n : Nat} {c : Char} (h : c ∈ toDecimalGo n f) :
    c.isDigit = true := by
  induction f generalizing n with
  | zero => cases h
  | succ f ih =>
    unfold toDecimalGo at h
    by_cases hn : n < 10
    · rw [if_pos hn] at h
      rw [List.mem_singleton] at h
      subst h
      interval_cases n <;> decide
    · rw [if_neg hn] at h
      rcases List.mem_cons.mp h with h | h
      · subst h
        have hr : n % 10 < 10 := Nat.mod_lt _ (by omega)
        set r := n % 10 with hrdef
        interval_cases r <;> decide
      · exact ih h

theorem natKey_ne_inuse (n : Nat) : natKey n ≠ "inuse" := by
  intro h
  have hd : (toDecimalGo n (n + 1)).reverse = "inuse".data := congrArg String.data h
  have hi : 'i' ∈ (toDecimalGo n (n + 1)).reverse := by rw [hd]; decide
  have := toDecimalGo_digits (List.mem_reverse.mp hi)
  simp at this

theorem alLookup_alPush2_ne {d : List (String × List ℚ)} {k k' : String} {x y : ℚ}
    (h : k ≠ k') : alLookup (alPush2 d k x y) k' = alLookup d k' := by
  induction d with
  | nil =>
    show (if k == k' then _ else _) = none
    rw [if_neg (by simpa using h)]
    rfl
  | cons e t ih =>
    obtain ⟨ek, ev⟩ := e
    show alLookup (if ek == k then _ else _) k' = _
    by_cases he : ek = k
    · subst he
      rw [if_pos (by simp)]
      show (if ek == k' then _ else _) = (if ek == k' then _ else _)
      rw [if_neg (by simpa using h), if_neg (by simpa using h)]
    · rw [if_neg (by simpa using he)]
      show (if ek == k' then _ else _) = (if ek == k' then _ else _)
      by_cases he' : ek = k'
      · rw [if_pos (by simpa using he'), if_pos (by simpa using he')]
      · rw [if_neg (by simpa using he'), if_neg (by simpa using he')]
        exact ih

theorem alLookup_alPush2_self {d : List (String × List ℚ)} {k : String} {x y : ℚ} :
    alLookup (alPush2 d k x y) k = some ((alLookup d k).getD [] ++ [x, y]) := by
  induction d with
  | nil =>
    show (if k == k then _ else _) = _
    rw [if_pos (by simp)]
    rfl
  | cons e t ih =>
    obtain ⟨ek, ev⟩ := e
    show alLookup (if ek == k then _ else _) k = _
    by_cases he : ek = k
    · subst he
      rw [if_pos (by simp)]
      show (if ek == ek then _ else _) = _
      rw [if_pos (by simp)]
      show some (ev ++ [x, y]) = some ((if ek == ek then some ev else alLookup t ek).getD [] ++ [x, y])
      rw [if_pos (by simp)]
      rfl
    · rw [if_neg (by simpa using he)]
      show (if ek == k then _ else _) = _
      rw [if_neg (by simpa using he)]
      rw [ih]
      show _ = some ((if ek == k then some ev else alLookup t k).getD [] ++ [x, y])
      rw [if_neg (by simpa using he)]

/-- Length of the `"inuse"` data sequence of a document. -/
def inuseLen (dv : DataViewer) : Nat := ((alLookup dv.data "inuse").getD []).length

theorem add_inuse_summary_len {dv dv' : DataViewer} {e : Int} {r : String}
    (h : add_inuse_summary dv e r = some dv') : inuseLen dv' = inuseLen dv + 2 := by
  unfold add_inuse_summary at h
  split at h
  · exact Option.noConfusion h
  · cases h
    unfold inuseLen
    simp only
    rw [alLookup_alPush2_self]
    simp

theorem add_memcontext_inuse (dv : DataViewer) (e : Int) (mc : Memcontext) :
    alLookup (add_memcontext dv e mc).data "inuse" = alLookup dv.data "inuse" := by
  unfold add_memcontext
  cases alLookup dv.info.uids mc.callstack with
  | some uid => exact alLookup_alPush2_ne (natKey_ne_inuse uid)
  | none => exact alLookup_alPush2_ne (natKey_ne_inuse (dv.info.uid_count + 1))

theorem add_memcontexts_inuse (dv : DataViewer) (e : Int) (mcs : List Memcontext) :
    alLookup (add_memcontexts dv e mcs).data "inuse" = alLookup dv.data "inuse" := by
  induction mcs generalizing dv with
  | nil => rfl
  | cons m ms ih =>
    show alLookup (add_memcontexts (add_memcontext dv e m) e ms).data "inuse" = _
    rw [ih, add_memcontext_inuse]

/-- Block-state evolution of one line, common to the code path and the spec's
classifier: a header opens a block, a body line keeps it open unless blank,
anything else leaves the (closed) state closed. -/
def lightIn (inb : Bool) (line : String) : Bool :=
  if (headerMatch line).isSome then true
  else if inb then !(line == "") else false

/-- A line reaching the code's in-use branch: not consumed as block body
(header-matched lines fall through), and carrying the in-use prefix. -/
def inuseHit (inb : Bool) (l : String) : Bool :=
  ((headerMatch l).isSome || !inb) && (dropLit "    in use: ".data l.data).isSome

/-- Count of lines the code processes as in-use-summary lines. -/
def codeInuseCountGo : Bool → List String → Nat
  | _, [] => 0
  | inb, l :: ls => (if inuseHit inb l then 1 else 0) + codeInuseCountGo (lightIn inb l) ls

def codeInuseCount (lines : List String) : Nat := codeInuseCountGo false lines

/-- Modelled from the spec (§4.1): the number of lines the spec's
first-match-wins classifier puts in the in-use-summary category (priority:
header, then body while a block is open, then timestamp prefix, then in-use
prefix).  Used only to compare the spec's notion of "in-use-summary line"
against the code's. -/
def specInuseCountGo : Bool → List String → Nat
  | _, [] => 0
  | inb, l :: ls =>
    (if (headerMatch l).isSome then 0
     else if inb then 0
     else if (dropLit "HEAP SUMMARY ".data l.data).isSome then 0
     else if (dropLit "    in use: ".data l.data).isSome then 1 else 0) +
    specInuseCountGo (lightIn inb l) ls

def specInuseCount (lines : List String) : Nat := specInuseCountGo false lines

theorem inuseStep_len {s s' : ScanState} {l : String} (h : inuseStep s l = .ok s') :
    inuseLen s'.dv =
      inuseLen s.dv + (if (dropLit "    in use: ".data l.data).isSome then 2 else 0) := by
  unfold inuseStep at h
  cases hd : dropLit "    in use: ".data l.data with
  | none => rw [hd] at h; cases h; simp [hd]
  | some rest =>
    rw [hd] at h
    dsimp only at h
    cases ha : add_inuse_summary s.dv (s.timestamp - s.min_ts) ⟨rest⟩ with
    | none => rw [ha] at h; exact Except.noConfusion h
    | some dv₁ =>
      rw [ha] at h
      cases h
      have h1 := add_inuse_summary_len ha
      simp only [hd, Option.isSome_some, if_true]
      show inuseLen (add_memcontexts dv₁ (s.timestamp - s.min_ts) s.memcontexts) = _
      unfold inuseLen
      rw [add_memcontexts_inuse]
      exact h1

theorem heapInuse_len {s s' : ScanState} {l : String} (h : heapInuse s l = .ok s') :
    s'.in_memcontext = s.in_memcontext ∧
    inuseLen s'.dv =
      inuseLen s.dv + (if (dropLit "    in use: ".data l.data).isSome then 2 else 0) := by
  unfold heapInuse at h
  cases hh : heapStep s l with
  | error e => rw [hh] at h; exact Except.noConfusion h
  | ok s₁ =>
    rw [hh] at h
    obtain ⟨hdv, -, -, hin⟩ := heapStep_fields hh
    obtain ⟨-, hin', -, -⟩ := inuseStep_fields h
    refine ⟨hin'.trans hin, ?_⟩
    have := inuseStep_len h
    rw [this, hdv]

theorem step_len {s t : ScanState} {l : String} (h : step s l = .ok t) :
    t.in_memcontext = lightIn s.in_memcontext l ∧
    inuseLen t.dv = inuseLen s.dv + (if inuseHit s.in_memcontext l then 2 else 0) := by
  unfold step at h
  cases hm : headerMatch l with
  | some ab =>
    obtain ⟨a, b⟩ := ab
    rw [hm] at h
    dsimp only at h
    obtain ⟨h1, h2⟩ := heapInuse_len h
    constructor
    · rw [h1]; unfold lightIn; rw [hm]; rfl
    · rw [h2]; unfold inuseHit; rw [hm]; rfl
  | none =>
    rw [hm] at h
    dsimp only at h
    by_cases hin : s.in_memcontext = true
    · rw [if_pos hin] at h
      have hhit : inuseHit s.in_memcontext l = false := by
        unfold inuseHit; rw [hm, hin]; rfl
      have hlight : lightIn s.in_memcontext l = !(l == "") := by
        unfold lightIn; rw [hm, hin]; rfl
      split at h
      · rename_i hl
        cases h
        refine ⟨?_, by rw [hhit]; simp⟩
        rw [hlight]
        simp [hl]
      · rename_i hl
        cases h
        refine ⟨?_, by rw [hhit]; simp⟩
        rw [hlight, hin]
        simp at hl
        simp [hl]
    · rw [if_neg hin] at h
      obtain ⟨h1, h2⟩ := heapInuse_len h
      have hin' : s.in_memcontext = false := by simpa using hin
      constructor
      · rw [h1]; unfold lightIn; rw [hm, hin']; rfl
      · rw [h2]; unfold inuseHit; rw [hm, hin']; simp

theorem codeInuseCountGo_cons (inb : Bool) (l : String) (ls : List String) :
    codeInuseCountGo inb (l :: ls) =
      (if inuseHit inb l then 1 else 0) + codeInuseCountGo (lightIn inb l) ls := rfl

theorem scanFrom_inuseLen {lines : List String} {s s' : ScanState}
    (h : scanFrom s lines = .ok s') :
    inuseLen s'.dv = inuseLen s.dv + 2 * codeInuseCountGo s.in_memcontext lines := by
  induction lines generalizing s with
  | nil => cases h; simp [codeInuseCountGo]
  | cons l ls ih =>
    rw [scanFrom_cons] at h
    cases hs : step s l with
    | error e => rw [hs] at h; exact Except.noConfusion h
    | ok t =>
      rw [hs] at h
      obtain ⟨h1, h2⟩ := step_len hs
      have h3 := ih h
      rw [h3, h2, h1, codeInuseCountGo_cons]
      by_cases hh : inuseHit s.in_memcontext l = true <;> simp [hh] <;> ring

/-- C2, as stated, is false on the code when "in-use-summary line" means the
spec's own first-match-wins classifier category: a line matching the header
pattern that also carries the `"    in use: "` prefix is classified as a
header (priority 1) yet still appends a sample, because the header branch
falls through.  Scanning just that line yields an `"inuse"` sequence of
length `2` although the classifier counts `0` in-use-summary lines. -/
theorem c2_counterexample :
    (scan ["    in use: 1 allocs, 2 bytes were not free"]).map
        (fun dv => ((alLookup dv.data "inuse").getD []).length) = .ok 2 ∧
    specInuseCount ["    in use: 1 allocs, 2 bytes were not free"] = 0 ∧
    (2 : Nat) ≠ 2 * 0 := by
  exact ⟨by decide, by decide, by decide⟩

/-- C2 amended: for every log the scan completes on, the length of the
`"inuse"` data sequence is exactly `2 ×` the number of lines the code
processes in the in-use branch — the lines that are not consumed as block
body and carry the `"    in use: "` prefix, including header-matched lines
with that prefix. -/
theorem c2_inuse_length {lines : List String} {dv : DataViewer}
    (h : scan lines = .ok dv) :
    ((alLookup dv.data "inuse").getD []).length = 2 * codeInuseCount lines := by
  unfold scan at h
  cases hs : scanSt lines with
  | error e => rw [hs] at h; exact Except.noConfusion h
  | ok s =>
    rw [hs] at h
    cases h
    have := scanFrom_inuseLen hs
    unfold inuseLen at this
    rw [this]
    show 0 + 2 * codeInuseCount lines = 2 * codeInuseCount lines
    exact Nat.zero_add _

/-- Witness for the amendment of C2 at a concrete log with two in-use lines
(one of them a header-matched fall-through). -/
theorem c2_inuse_length_witness :
    ((alLookup
        (match scan ["HEAP SUMMARY Mon Jan 01 00:00:00 2024", "    in use: 500000 bytes",
            "    in use: 1 allocs, 2 bytes were not free"] with
          | .ok dv => dv
          | .error _ => DataViewer.new).data "inuse").getD []).length =
      2 * codeInuseCount ["HEAP SUMMARY Mon Jan 01 00:00:00 2024",
        "    in use: 500000 bytes", "    in use: 1 allocs, 2 bytes were not free"] := by
  have hdv : scan ["HEAP SUMMARY Mon Jan 01 00:00:00 2024", "    in use: 500000 bytes",
      "    in use: 1 allocs, 2 bytes were not free"] =
    .ok { dataview := DataViewer.new.dataview
          chart := [("inuse", { title := some "Total HEAP Memory in use" })]
          data := [("inuse", [0, 500, 0, Rat.divInt 2 1000])]
          info := {} } := by decide
  rw [hdv]
  exact c2_inuse_length hdv

/-! ### C6 -/

theorem dropLit_cons_head {x : Char} {xs cs r : List Char}
    (h : dropLit (x :: xs) cs = some r) : ∃ t, cs = x :: t := by
  cases cs with
  | nil => exact Option.noConfusion h
  | cons c t =>
    unfold dropLit at h
    by_cases hc : c = x
    · exact ⟨t, by rw [hc]⟩
    · rw [if_neg hc] at h
      exact Option.noConfusion h

theorem heap_inuse_exclusive {l : String} {r r' : List Char}
    (h1 : dropLit "HEAP SUMMARY ".data l.data = some r)
    (h2 : dropLit "    in use: ".data l.data = some r') : False := by
  have e1 : "HEAP SUMMARY ".data = 'H' :: "EAP SUMMARY ".data := rfl
  have e2 : "    in use: ".data = ' ' :: "   in use: ".data := rfl
  rw [e1] at h1
  rw [e2] at h2
  obtain ⟨t, ht⟩ := dropLit_cons_head h1
  obtain ⟨t', ht'⟩ := dropLit_cons_head h2
  rw [ht] at ht'
  exact absurd (List.head_eq_of_cons_eq ht') (by decide)

/-- A line reaching the code's snapshot-timestamp branch: not consumed as
block body, and carrying the `"HEAP SUMMARY "` prefix. -/
def heapHit (inb : Bool) (l : String) : Bool :=
  ((headerMatch l).isSome || !inb) && (dropLit "HEAP SUMMARY ".data l.data).isSome

/-- Number of lines processed by the snapshot-timestamp branch before the
first line processed by the in-use branch. -/
def heapBeforeInuseGo : Bool → List String → Nat
  | _, [] => 0
  | inb, l :: ls =>
    if inuseHit inb l then 0
    else (if heapHit inb l then 1 else 0) + heapBeforeInuseGo (lightIn inb l) ls

def heapBeforeInuse (lines : List String) : Nat := heapBeforeInuseGo false lines

theorem heapStep_some_pre {s s' : ScanState} {l : String} {rest : List Char}
    (hd : dropLit "HEAP SUMMARY ".data l.data = some rest)
    (h : heapStep s l = .ok s') :
    ∃ ts, parse_from_str ⟨rest⟩ = some ts ∧
      s' = { s with timestamp := ts, min_ts := if s.min_ts == 0 then ts else s.min_ts } := by
  unfold heapStep at h
  rw [hd] at h
  dsimp only at h
  cases hp : parse_from_str ⟨rest⟩ with
  | none => rw [hp] at h; exact Except.noConfusion h
  | some ts =>
    rw [hp] at h
    cases h
    exact ⟨ts, rfl, rfl⟩

theorem inuseStep_some_pre {s s' : ScanState} {l : String} {rest : List Char}
    (hd : dropLit "    in use: ".data l.data = some rest)
    (h : inuseStep s l = .ok s') :
    ∃ b : ℚ, (alLookup s'.dv.data "inuse").getD [] =
        (alLookup s.dv.data "inuse").getD [] ++
          [Rat.divInt (s.timestamp - s.min_ts) 3600, b] := by
  unfold inuseStep at h
  rw [hd] at h
  dsimp only at h
  cases ha : add_inuse_summary s.dv (s.timestamp - s.min_ts) ⟨rest⟩ with
  | none => rw [ha] at h; exact Except.noConfusion h
  | some dv₁ =>
    rw [ha] at h
    cases h
    unfold add_inuse_summary at ha
    cases hb : findBytes rest with
    | none => rw [hb] at ha; exact Option.noConfusion ha
    | some bytes =>
      rw [hb] at ha
      cases ha
      refine ⟨Rat.divInt (bytes : Int) 1000, ?_⟩
      show (alLookup (add_memcontexts _ _ s.memcontexts).data "inuse").getD [] = _
      rw [add_memcontexts_inuse]
      simp only
      rw [alLookup_alPush2_self]
      rfl

theorem step_not_inuse_dv {s t : ScanState} {l : String} (h : step s l = .ok t)
    (hh : inuseHit s.in_memcontext l = false) : t.dv = s.dv := by
  unfold inuseHit at hh
  unfold step at h
  cases hm : headerMatch l with
  | some ab =>
    obtain ⟨a, b⟩ := ab
    rw [hm] at h
    dsimp only at h
    rw [hm] at hh
    simp at hh
    rw [heapInuse_no_inuse (by simpa using hh)] at h
    exact (heapStep_fields h).1
  | none =>
    rw [hm] at h
    dsimp only at h
    by_cases hin : s.in_memcontext = true
    · rw [if_pos hin] at h
      split at h
      · cases h; rfl
      · cases h; rfl
    · rw [if_neg hin] at h
      rw [hm] at hh
      simp [Bool.not_eq_true' .. ] at hh
      rw [(by simpa using hin : s.in_memcontext = false)] at hh
      simp at hh
      rw [heapInuse_no_inuse (by simpa using hh)] at h
      exact (heapStep_fields h).1

theorem step_not_heap_ts {s t : ScanState} {l : String} (h : step s l = .ok t)
    (hh : heapHit s.in_memcontext l = false) :
    t.timestamp = s.timestamp ∧ t.min_ts = s.min_ts := by
  unfold heapHit at hh
  unfold step at h
  cases hm : headerMatch l with
  | some ab =>
    obtain ⟨a, b⟩ := ab
    rw [hm] at h
    dsimp only at h
    rw [hm] at hh
    simp at hh
    unfold heapInuse at h
    rw [heapStep_of_none (by simpa using hh)] at h
    obtain ⟨-, -, i3, i4⟩ := inuseStep_fields h
    exact ⟨i3, i4⟩
  | none =>
    rw [hm] at h
    dsimp only at h
    by_cases hin : s.in_memcontext = true
    · rw [if_pos hin] at h
      split at h
      · cases h; exact ⟨rfl, rfl⟩
      · cases h; exact ⟨rfl, rfl⟩
    · rw [if_neg hin] at h
      rw [hm, (by simpa using hin : s.in_memcontext = false)] at hh
      simp at hh
      unfold heapInuse at h
      rw [heapStep_of_none (by simpa using hh)] at h
      obtain ⟨-, -, i3, i4⟩ := inuseStep_fields h
      exact ⟨i3, i4⟩

theorem step_heap_ts {s t : ScanState} {l : String} (h : step s l = .ok t)
    (hh : heapHit s.in_memcontext l = true) :
    t.min_ts = (if s.min_ts == 0 then t.timestamp else s.min_ts) := by
  unfold heapHit at hh
  simp only [Bool.and_eq_true] at hh
  obtain ⟨hfirst, hsnd⟩ := hh
  rw [Option.isSome_iff_exists] at hsnd
  obtain ⟨rest, hd⟩ := hsnd
  unfold step at h
  cases hm : headerMatch l with
  | some ab =>
    obtain ⟨a, b⟩ := ab
    rw [hm] at h
    dsimp only at h
    unfold heapInuse at h
    cases hhs : heapStep _ l with
    | error e => rw [hhs] at h; exact Except.noConfusion h
    | ok s₁ =>
      rw [hhs] at h
      dsimp only at h
      obtain ⟨ts, -, hs₁⟩ := heapStep_some_pre hd hhs
      obtain ⟨-, -, i3, i4⟩ := inuseStep_fields h
      rw [i4, i3, hs₁]
  | none =>
    rw [hm] at h
    dsimp only at h
    by_cases hin : s.in_memcontext = true
    · exfalso
      rw [hm, hin] at hfirst
      simp at hfirst
    · rw [if_neg hin] at h
      unfold heapInuse at h
      cases hhs : heapStep s l with
      | error e => rw [hhs] at h; exact Except.noConfusion h
      | ok s₁ =>
        rw [hhs] at h
        dsimp only at h
        obtain ⟨ts, -, hs₁⟩ := heapStep_some_pre hd hhs
        obtain ⟨-, -, i3, i4⟩ := inuseStep_fields h
        rw [i4, i3, hs₁]

theorem step_inuse_push {s t : ScanState} {l : String} (h : step s l = .ok t)
    (hh : inuseHit s.in_memcontext l = true) :
    ∃ b : ℚ, (alLookup t.dv.data "inuse").getD [] =
        (alLookup s.dv.data "inuse").getD [] ++
          [Rat.divInt (s.timestamp - s.min_ts) 3600, b] := by
  unfold inuseHit at hh
  simp only [Bool.and_eq_true] at hh
  obtain ⟨hfirst, hsnd⟩ := hh
  rw [Option.isSome_iff_exists] at hsnd
  obtain ⟨rest, hd⟩ := hsnd
  have hheap : dropLit "HEAP SUMMARY ".data l.data = none := by
    cases hx : dropLit "HEAP SUMMARY ".data l.data with
    | none => rfl
    | some r => exact absurd (heap_inuse_exclusive hx hd) not_false
  unfold step at h
  cases hm : headerMatch l with
  | some ab =>
    obtain ⟨a, b⟩ := ab
    rw [hm] at h
    dsimp only at h
    unfold heapInuse at h
    rw [heapStep_of_none hheap] at h
    dsimp only at h
    obtain ⟨b, hb⟩ := inuseStep_some_pre hd h
    exact ⟨b, hb⟩
  | none =>
    rw [hm] at h
    dsimp only at h
    by_cases hin : s.in_memcontext = true
    · exfalso
      rw [hm, hin] at hfirst
      simp at hfirst
    · rw [if_neg hin] at h
      unfold heapInuse at h
      rw [heapStep_of_none hheap] at h
      dsimp only at h
      exact inuseStep_some_pre hd h

theorem head?_append_some {α : Type} {x y : List α} {q : α}
    (h : x.head? = some q) : (x ++ y).head? = some q := by
  cases x with
  | nil => cases h
  | cons a t => cases h; rfl

theorem heapBeforeInuseGo_cons (inb : Bool) (l : String) (ls : List String) :
    heapBeforeInuseGo inb (l :: ls) =
      if inuseHit inb l then 0
      else (if heapHit inb l then 1 else 0) + heapBeforeInuseGo (lightIn inb l) ls := rfl

theorem c6_main {lines : List String} {s s' : ScanState}
    (hok : scanFrom s lines = .ok s') :
    (∀ q, ((alLookup s.dv.data "inuse").getD []).head? = some q →
      ((alLookup s'.dv.data "inuse").getD []).head? = some q) ∧
    ((alLookup s.dv.data "inuse").getD [] = [] → s.timestamp = s.min_ts →
      (s.min_ts = 0 → heapBeforeInuseGo s.in_memcontext lines ≤ 1) →
      (s.min_ts ≠ 0 → heapBeforeInuseGo s.in_memcontext lines = 0) →
      ∀ q, ((alLookup s'.dv.data "inuse").getD []).head? = some q → q = 0) := by
  induction lines generalizing s with
  | nil =>
    cases hok
    refine ⟨fun q hq => hq, fun he _ _ _ q hq => ?_⟩
    rw [he] at hq
    cases hq
  | cons l ls ih =>
    rw [scanFrom_cons] at hok
    cases hstep : step s l with
    | error e => rw [hstep] at hok; exact Except.noConfusion hok
    | ok t =>
      rw [hstep] at hok
      dsimp only at hok
      have hlight := (step_len hstep).1
      by_cases hit : inuseHit s.in_memcontext l = true
      · obtain ⟨b, hb⟩ := step_inuse_push hstep hit
        constructor
        · intro q hq
          exact (ih hok).1 q (hb ▸ head?_append_some hq)
        · intro he hts h0 hne q hq
          have hx : (alLookup t.dv.data "inuse").getD [] = [(0 : ℚ), b] := by
            rw [hb, he, hts]
            simp [Rat.zero_divInt]
          have ht0 : ((alLookup t.dv.data "inuse").getD []).head? = some 0 := by
            rw [hx]; rfl
          have hfin := (ih hok).1 0 ht0
          have := hfin.symm.trans hq
          exact (Option.some.inj this).symm
      · have hdv := step_not_inuse_dv hstep (by simpa using hit)
        constructor
        · intro q hq
          exact (ih hok).1 q (by rw [hdv]; exact hq)
        · intro he hts h0 hne q hq
          have he' : (alLookup t.dv.data "inuse").getD [] = [] := by rw [hdv]; exact he
          by_cases hhp : heapHit s.in_memcontext l = true
          · have hmin := step_heap_ts hstep hhp
            have hcount : heapBeforeInuseGo s.in_memcontext (l :: ls) =
                1 + heapBeforeInuseGo (lightIn s.in_memcontext l) ls := by
              rw [heapBeforeInuseGo_cons, if_neg (by simpa using hit), if_pos hhp]
            by_cases hmz : s.min_ts = 0
            · have hrec : heapBeforeInuseGo (lightIn s.in_memcontext l) ls = 0 := by
                have := h0 hmz
                rw [hcount] at this
                omega
              have hts' : t.timestamp = t.min_ts := by
                rw [hmin, hmz]
                simp
              refine (ih hok).2 he' hts' (fun _ => ?_) (fun _ => ?_) q hq <;>
                rw [hlight, hrec]
              exact Nat.zero_le 1
            · exfalso
              have := hne hmz
              rw [hcount] at this
              omega
          · obtain ⟨ht1, ht2⟩ := step_not_heap_ts hstep (by simpa using hhp)
            have hcount : heapBeforeInuseGo s.in_memcontext (l :: ls) =
                heapBeforeInuseGo (lightIn s.in_memcontext l) ls := by
              rw [heapBeforeInuseGo_cons, if_neg (by simpa using hit),
                if_neg (by simpa using hhp)]
              exact Nat.zero_add _
            have hts' : t.timestamp = t.min_ts := by rw [ht1, ht2]; exact hts
            refine (ih hok).2 he' hts' (fun hz => ?_) (fun hz => ?_) q hq <;>
              rw [hlight, ← hcount]
            · exact h0 (by rw [← ht2]; exact hz)
            · exact hne (by rw [← ht2]; exact hz)

/-- C6, as stated, is false on the code: the baseline `min_ts` is indeed set
from the first snapshot-timestamp line, but `timestamp` keeps following later
timestamp lines, so when two `"HEAP SUMMARY "` lines precede the first
`"    in use: "` line the first in-use sample's x value is the difference of
the two snapshots — here `1` hour, not `0.0`. -/
theorem c6_counterexample :
    (scan ["HEAP SUMMARY Mon Jan 01 00:00:00 2024",
        "HEAP SUMMARY Mon Jan 01 01:00:00 2024", "    in use: 5 bytes"]).map
        (fun dv => ((alLookup dv.data "inuse").getD []).head?) = .ok (some 1) ∧
    some (1 : ℚ) ≠ some 0 := by
  exact ⟨by decide, by decide⟩

/-- C6 amended: the first in-use sample's x value is `0.0` provided at most
one snapshot-timestamp line is processed before the first in-use-summary
line (in particular in any log where each snapshot's timestamp line is
directly followed by its in-use line).  This holds even when that one
timestamp parses to the Unix epoch `0`, where the `min_ts == 0` sentinel
never records a baseline. -/
theorem c6_first_sample_zero {lines : List String} {dv : DataViewer}
    (h : scan lines = .ok dv) (hb : heapBeforeInuse lines ≤ 1) :
    ∀ q, ((alLookup dv.data "inuse").getD []).head? = some q → q = 0 := by
  unfold scan at h
  cases hs : scanSt lines with
  | error e => rw [hs] at h; exact Except.noConfusion h
  | ok st =>
    rw [hs] at h
    cases h
    exact (c6_main hs).2 rfl rfl (fun _ => hb) (fun hne => absurd rfl hne)

/-- Witness for the amendment of C6 at a concrete two-snapshot log whose
first in-use line directly follows the first timestamp line. -/
theorem c6_first_sample_zero_witness :
    heapBeforeInuse ["HEAP SUMMARY Mon Jan 01 00:00:00 2024", "    in use: 500000 bytes",
        "HEAP SUMMARY Mon Jan 01 01:00:00 2024", "    in use: 500000 bytes"] ≤ 1 ∧
    (0 : ℚ) = 0 := by
  have hdv : scan ["HEAP SUMMARY Mon Jan 01 00:00:00 2024", "    in use: 500000 bytes",
      "HEAP SUMMARY Mon Jan 01 01:00:00 2024", "    in use: 500000 bytes"] =
    .ok { dataview := DataViewer.new.dataview
          chart := [("inuse", { title := some "Total HEAP Memory in use" })]
          data := [("inuse", [0, 500, 1, 500])]
          info := {} } := by decide
  exact ⟨by decide, c6_first_sample_zero hdv (by decide) 0 (by decide)⟩

/-! ### C1 -/

/-- Little-endian decimal evaluation, inverse to `toDecimalGo`. -/
def evalLE : List Char → Nat
  | [] => 0
  | c :: cs => (c.toNat - 48) + 10 * evalLE cs

theorem toDecimalGo_evalLE {f n : Nat} (h : n < f) : evalLE (toDecimalGo n f) = n := by
  induction f generalizing n with
  | zero => omega
  | succ f ih =>
    unfold toDecimalGo
    by_cases hn : n < 10
    · rw [if_pos hn]
      show (Char.ofNat (48 + n)).toNat - 48 + 10 * 0 = n
      have : (Char.ofNat (48 + n)).toNat = 48 + n := by interval_cases n <;> decide
      omega
    · rw [if_neg hn]
      show (Char.ofNat (48 + n % 10)).toNat - 48 + 10 * evalLE (toDecimalGo (n / 10) f) = n
      have h1 : (Char.ofNat (48 + n % 10)).toNat = 48 + n % 10 := by
        have hr : n % 10 < 10 := Nat.mod_lt _ (by omega)
        set r := n % 10 with hrdef
        interval_cases r <;> decide
      have h2 : n / 10 < f := by
        have := Nat.div_lt_self (by omega : 0 < n) (by omega : 1 < 10)
        omega
      rw [h1, ih h2]
      omega

theorem natKey_inj {m n : Nat} (h : natKey m = natKey n) : m = n := by
  have hd : (toDecimalGo m (m + 1)).reverse = (toDecimalGo n (n + 1)).reverse :=
    congrArg String.data h
  have hl : toDecimalGo m (m + 1) = toDecimalGo n (n + 1) := List.reverse_inj.mp hd
  have := congrArg evalLE hl
  rw [toDecimalGo_evalLE (by omega), toDecimalGo_evalLE (by omega)] at this
  exact this

theorem alLookup_append {α : Type} (xs ys : List (String × α)) (k : String) :
    alLookup (xs ++ ys) k =
      match alLookup xs k with
      | some v => some v
      | none => alLookup ys k := by
  induction xs with
  | nil => rfl
  | cons e t ih =>
    obtain ⟨ek, ev⟩ := e
    show (if ek == k then _ else _) = _
    by_cases he : ek = k
    · rw [if_pos (by simpa using he)]
      show _ = (match (if ek == k then some ev else _) with | some v => some v | none => _)
      rw [if_pos (by simpa using he)]
    · rw [if_neg (by simpa using he)]
      show alLookup (t ++ ys) k = _
      rw [ih]
      show _ = (match (if ek == k then some ev else alLookup t k) with
        | some v => some v | none => alLookup ys k)
      rw [if_neg (by simpa using he)]

/-- The distinct callstacks of a scan in first-seen order; `seen` accumulates
the keys already emitted. -/
def firstUniqGo : List String → List String → List String
  | _, [] => []
  | seen, c :: cs =>
    if c ∈ seen then firstUniqGo seen cs
    else c :: firstUniqGo (seen ++ [c]) cs

def firstUniq (cs : List String) : List String := firstUniqGo [] cs

theorem firstUniqGo_append_singleton (seen xs : List String) (c : String) :
    firstUniqGo seen (xs ++ [c]) =
      firstUniqGo seen xs ++ (if c ∈ seen ∨ c ∈ xs then [] else [c]) := by
  induction xs generalizing seen with
  | nil =>
    show (if c ∈ seen then _ else _) = [] ++ _
    by_cases hc : c ∈ seen
    · rw [if_pos hc, if_pos (Or.inl hc)]
      rfl
    · rw [if_neg hc, if_neg (by simpa using hc)]
      rfl
  | cons x xs ih =>
    show (if x ∈ seen then _ else _) = (if x ∈ seen then _ else _) ++ _
    simp only [List.append_eq]
    by_cases hx : x ∈ seen
    · rw [if_pos hx, if_pos hx, ih]
      have : (c ∈ seen ∨ c ∈ xs) ↔ (c ∈ seen ∨ c ∈ x :: xs) := by
        constructor
        · rintro (h | h)
          · exact Or.inl h
          · exact Or.inr (List.mem_cons_of_mem _ h)
        · rintro (h | h)
          · exact Or.inl h
          · rcases List.mem_cons.mp h with rfl | h
            · exact Or.inl hx
            · exact Or.inr h
      by_cases hc : c ∈ seen ∨ c ∈ xs
      · rw [if_pos hc, if_pos (this.mp hc)]
      · rw [if_neg hc, if_neg (fun hh => hc (this.mpr hh))]
    · rw [if_neg hx, if_neg hx, ih, List.cons_append]
      have : (c ∈ seen ++ [x] ∨ c ∈ xs) ↔ (c ∈ seen ∨ c ∈ x :: xs) := by
        rw [List.mem_append, List.mem_singleton, List.mem_cons]
        tauto
      by_cases hc : c ∈ seen ++ [x] ∨ c ∈ xs
      · rw [if_pos hc, if_pos (this.mp hc)]
      · rw [if_neg hc, if_neg (fun hh => hc (this.mpr hh))]

theorem firstUniq_append_singleton (xs : List String) (c : String) :
    firstUniq (xs ++ [c]) = firstUniq xs ++ (if c ∈ xs then [] else [c]) := by
  unfold firstUniq
  rw [firstUniqGo_append_singleton]
  by_cases hc : c ∈ xs
  · rw [if_pos hc, if_pos (show c ∈ ([] : List String) ∨ c ∈ xs from Or.inr hc)]
  · rw [if_neg hc, if_neg (show ¬(c ∈ ([] : List String) ∨ c ∈ xs) from by simp [hc])]

theorem mem_firstUniqGo {seen xs : List String} {c : String} :
    c ∈ firstUniqGo seen xs ↔ c ∈ xs ∧ c ∉ seen := by
  induction xs generalizing seen with
  | nil => simp [firstUniqGo]
  | cons x xs ih =>
    show c ∈ (if x ∈ seen then _ else _) ↔ _
    by_cases hx : x ∈ seen
    · rw [if_pos hx, ih]
      constructor
      · rintro ⟨h1, h2⟩
        exact ⟨List.mem_cons_of_mem _ h1, h2⟩
      · rintro ⟨h1, h2⟩
        rcases List.mem_cons.mp h1 with rfl | h1
        · exact absurd hx h2
        · exact ⟨h1, h2⟩
    · rw [if_neg hx, List.mem_cons, ih]
      constructor
      · rintro (rfl | ⟨h1, h2⟩)
        · exact ⟨List.mem_cons_self _ _, hx⟩
        · rw [List.mem_append, List.mem_singleton] at h2
          exact ⟨List.mem_cons_of_mem _ h1, fun hs => h2 (Or.inl hs)⟩
      · rintro ⟨h1, h2⟩
        rcases List.mem_cons.mp h1 with rfl | h1
        · exact Or.inl rfl
        · by_cases hcx : c = x
          · exact Or.inl hcx
          · refine Or.inr ⟨h1, ?_⟩
            rw [List.mem_append, List.mem_singleton]
            rintro (hs | hs)
            · exact h2 hs
            · exact hcx hs

theorem mem_firstUniq {xs : List String} {c : String} : c ∈ firstUniq xs ↔ c ∈ xs := by
  unfold firstUniq
  rw [mem_firstUniqGo]
  simp

/-- The association list binding the `i`-th key of `F` (0-based) to `k + i`:
what the registry looks like after registering the keys of `F` in order
starting from uid `k`. -/
def uidAssoc : List String → Nat → List (String × Nat)
  | [], _ => []
  | c :: F, k => (c, k) :: uidAssoc F (k + 1)

theorem uidAssoc_append (A B : List String) (k : Nat) :
    uidAssoc (A ++ B) k = uidAssoc A k ++ uidAssoc B (k + A.length) := by
  induction A generalizing k with
  | nil => simp [uidAssoc]
  | cons a A ih =>
    show (a, k) :: uidAssoc (A ++ B) (k + 1) = (a, k) :: (uidAssoc A (k + 1) ++ _)
    rw [ih]
    have : k + 1 + A.length = k + (a :: A).length := by simp; omega
    rw [this]

theorem alLookup_uidAssoc_none {F : List String} {k : Nat} {c : String} :
    alLookup (uidAssoc F k) c = none ↔ c ∉ F := by
  induction F generalizing k with
  | nil => simp [uidAssoc, alLookup]
  | cons f F ih =>
    show (if f == c then some k else alLookup (uidAssoc F (k + 1)) c) = none ↔ _
    by_cases hf : f = c
    · rw [if_pos (by simpa using hf)]
      simp [hf]
    · rw [if_neg (by simpa using hf)]
      rw [ih]
      constructor
      · intro h1 hmem
        rcases List.mem_cons.mp hmem with h2 | h2
        · exact hf h2.symm
        · exact h1 h2
      · intro h1 h2
        exact h1 (List.mem_cons_of_mem _ h2)

theorem alLookup_uidAssoc_bound {F : List String} {k : Nat} {c : String} {u : Nat}
    (h : alLookup (uidAssoc F k) c = some u) : k ≤ u ∧ u < k + F.length := by
  induction F generalizing k with
  | nil => exact Option.noConfusion h
  | cons f F ih =>
    have h' : (if f == c then some k else alLookup (uidAssoc F (k + 1)) c) = some u := h
    by_cases hf : f = c
    · rw [if_pos (by simpa using hf)] at h'
      cases h'
      simp only [List.length_cons]
      omega
    · rw [if_neg (by simpa using hf)] at h'
      have := ih h'
      simp only [List.length_cons]
      omega

theorem alLookup_uidAssoc_inj {F : List String} {k : Nat} {c c' : String} {u u' : Nat}
    (hne : c ≠ c') (h : alLookup (uidAssoc F k) c = some u)
    (h' : alLookup (uidAssoc F k) c' = some u') : u ≠ u' := by
  induction F generalizing k with
  | nil => exact Option.noConfusion h
  | cons f F ih =>
    have h1 : (if f == c then some k else alLookup (uidAssoc F (k + 1)) c) = some u := h
    have h2 : (if f == c' then some k else alLookup (uidAssoc F (k + 1)) c') = some u' := h'
    by_cases hf : f = c
    · rw [if_pos (by simpa using hf)] at h1
      cases h1
      rw [if_neg (by simpa using (hf ▸ hne : f ≠ c'))] at h2
      have := alLookup_uidAssoc_bound h2
      omega
    · rw [if_neg (by simpa using hf)] at h1
      by_cases hf' : f = c'
      · rw [if_pos (by simpa using hf')] at h2
        cases h2
        have := alLookup_uidAssoc_bound h1
        omega
      · rw [if_neg (by simpa using hf')] at h2
        exact ih h1 h2

/-- The interleaved sample sequence contributed to the series of callstack
`c` by the dispatched blocks `ms` (each an elapsed time with its context):
`elapsed/3600` then `bytes/1000` for every block whose callstack is `c`, in
order. -/
def ctxSamples (ms : List (Int × Memcontext)) (c : String) : List ℚ :=
  (ms.filter (fun em => em.2.callstack == c)).bind
    (fun em => [Rat.divInt em.1 3600, Rat.divInt (em.2.bytes : Int) 1000])

theorem ctxSamples_append_singleton (ms : List (Int × Memcontext))
    (em : Int × Memcontext) (c : String) :
    ctxSamples (ms ++ [em]) c =
      ctxSamples ms c ++
        (if em.2.callstack == c then
          [Rat.divInt em.1 3600, Rat.divInt (em.2.bytes : Int) 1000] else []) := by
  unfold ctxSamples
  rw [List.filter_append]
  by_cases hc : em.2.callstack = c
  · rw [show List.filter (fun em => em.2.callstack == c) [em] = [em] from by
      rw [List.filter_singleton]; simp [hc]]
    rw [if_pos (by simpa using hc)]
    simp
  · rw [show List.filter (fun em => em.2.callstack == c) [em] = [] from by
      rw [List.filter_singleton]
      rw [show (em.2.callstack == c) = false from by simpa using hc]
      rfl]
    rw [if_neg (by simpa using hc)]
    simp

theorem ctxSamples_nil_of_not_mem {ms : List (Int × Memcontext)} {c : String}
    (h : c ∉ ms.map (fun em => em.2.callstack)) : ctxSamples ms c = [] := by
  unfold ctxSamples
  have : ms.filter (fun em => em.2.callstack == c) = [] := by
    rw [List.filter_eq_nil]
    intro em hm
    simp only [beq_iff_eq]
    intro hc
    exact h (List.mem_map.mpr ⟨em, hm, hc⟩)
  rw [this]
  rfl

/-- The registry transactions of a whole scan: every completed block, with
its elapsed time, dispatched through `add_memcontext` in file order starting
from the fresh document. -/
def processAll (ms : List (Int × Memcontext)) : DataViewer :=
  ms.foldl (fun dv em => add_memcontext dv em.1 em.2) DataViewer.new

theorem processAll_append (ms : List (Int × Memcontext)) (em : Int × Memcontext) :
    processAll (ms ++ [em]) = add_memcontext (processAll ms) em.1 em.2 := by
  unfold processAll
  rw [List.foldl_append]
  rfl

theorem add_memcontext_seen {dv : DataViewer} {e : Int} {mc : Memcontext} {u : Nat}
    (h : alLookup dv.info.uids mc.callstack = some u) :
    add_memcontext dv e mc =
      { dv with
        data := alPush2 dv.data (natKey u)
          (Rat.divInt e 3600) (Rat.divInt (mc.bytes : Int) 1000) } := by
  unfold add_memcontext
  rw [h]

theorem add_memcontext_fresh {dv : DataViewer} {e : Int} {mc : Memcontext}
    (h : alLookup dv.info.uids mc.callstack = none) :
    add_memcontext dv e mc =
      { dv with
        info := { uid_count := dv.info.uid_count + 1
                  uids := dv.info.uids ++ [(mc.callstack, dv.info.uid_count + 1)] }
        chart := alInsert dv.chart (natKey (dv.info.uid_count + 1))
          { title := some ("Memory Context with UID:" ++ natKey (dv.info.uid_count + 1))
            description := some mc.callstack }
        data := alPush2 dv.data (natKey (dv.info.uid_count + 1))
          (Rat.divInt e 3600) (Rat.divInt (mc.bytes : Int) 1000) } := by
  unfold add_memcontext
  rw [h]

theorem firstUniq_mono (xs ys : List String) :
    ∃ e, firstUniq (xs ++ ys) = firstUniq xs ++ e := by
  induction ys using List.reverseRecOn with
  | nil => exact ⟨[], by simp⟩
  | append_singleton ys c ih =>
    obtain ⟨e, he⟩ := ih
    rw [show xs ++ (ys ++ [c]) = (xs ++ ys) ++ [c] from (List.append_assoc _ _ _).symm]
    rw [firstUniq_append_singleton, he]
    exact ⟨e ++ _, by rw [List.append_assoc]⟩

/-- The callstack texts of a dispatch sequence, in file order. -/
def callstacks (ms : List (Int × Memcontext)) : List String :=
  ms.map (fun em => em.2.callstack)

theorem callstacks_append (ms : List (Int × Memcontext)) (em : Int × Memcontext) :
    callstacks (ms ++ [em]) = callstacks ms ++ [em.2.callstack] := by
  unfold callstacks
  rw [List.map_append]
  rfl

/-- Full characterization of the document after dispatching `ms`: the uid
counter equals the number of distinct callstacks seen; the registry binds the
distinct callstacks, in first-seen order, to `1, 2, 3, …`; every registered
uid's series holds exactly the interleaved samples of the blocks carrying
that callstack; and every data series key is a registered uid's key. -/
theorem processAll_char (ms : List (Int × Memcontext)) :
    (processAll ms).info.uid_count = (firstUniq (callstacks ms)).length ∧
    (processAll ms).info.uids = uidAssoc (firstUniq (callstacks ms)) 1 ∧
    (∀ c u, alLookup (processAll ms).info.uids c = some u →
      alLookup (processAll ms).data (natKey u) = some (ctxSamples ms c)) ∧
    (∀ k v, alLookup (processAll ms).data k = some v →
      ∃ c u, alLookup (processAll ms).info.uids c = some u ∧ k = natKey u) := by
  induction ms using List.reverseRecOn with
  | nil =>
    refine ⟨rfl, rfl, ?_, ?_⟩
    · intro c u h
      exact Option.noConfusion h
    · intro k v h
      exact Option.noConfusion h
  | append_singleton ms em ih =>
    obtain ⟨ih1, ih2, ih3, ih4⟩ := ih
    rw [processAll_append]
    cases hlk : alLookup (processAll ms).info.uids em.2.callstack with
    | some u =>
      have hlk2 : alLookup (uidAssoc (firstUniq (callstacks ms)) 1) em.2.callstack =
          some u := by rw [← ih2]; exact hlk
      have hmemCS : em.2.callstack ∈ callstacks ms := by
        by_contra hmem
        have hmemF : em.2.callstack ∉ firstUniq (callstacks ms) :=
          fun h => hmem (mem_firstUniq.mp h)
        rw [alLookup_uidAssoc_none.mpr hmemF] at hlk2
        exact Option.noConfusion hlk2
      have hF : firstUniq (callstacks (ms ++ [em])) = firstUniq (callstacks ms) := by
        rw [callstacks_append, firstUniq_append_singleton, if_pos hmemCS, List.append_nil]
      rw [add_memcontext_seen hlk]
      refine ⟨?_, ?_, ?_, ?_⟩
      · show (processAll ms).info.uid_count = _
        rw [hF]
        exact ih1
      · show (processAll ms).info.uids = _
        rw [hF]
        exact ih2
      · intro c' u' h'
        have h'' : alLookup (processAll ms).info.uids c' = some u' := h'
        show alLookup (alPush2 (processAll ms).data (natKey u) _ _) (natKey u') = _
        by_cases hc : c' = em.2.callstack
        · have hu : u' = u := by
            rw [hc] at h''
            exact Option.some.inj (h''.symm.trans hlk)
          rw [hu, alLookup_alPush2_self, ih3 _ _ hlk, hc]
          rw [ctxSamples_append_singleton, if_pos (by simp)]
          rfl
        · have h2 : alLookup (uidAssoc (firstUniq (callstacks ms)) 1) c' = some u' := by
            rw [← ih2]; exact h''
          have hne : u' ≠ u := alLookup_uidAssoc_inj hc h2 hlk2
          rw [alLookup_alPush2_ne (fun he => hne (natKey_inj he).symm)]
          rw [ih3 _ _ h'']
          rw [ctxSamples_append_singleton,
            if_neg (by simpa using fun h => hc h.symm), List.append_nil]
      · intro k v h'
        by_cases hk : k = natKey u
        · exact ⟨em.2.callstack, u, hlk, hk⟩
        · have h'' : alLookup (alPush2 (processAll ms).data (natKey u) _ _) k = some v := h'
          rw [alLookup_alPush2_ne (fun he => hk he.symm)] at h''
          exact ih4 k v h''
    | none =>
      have hlk2 : alLookup (uidAssoc (firstUniq (callstacks ms)) 1) em.2.callstack =
          none := by rw [← ih2]; exact hlk
      have hmemF : em.2.callstack ∉ firstUniq (callstacks ms) :=
        alLookup_uidAssoc_none.mp hlk2
      have hmemCS : em.2.callstack ∉ callstacks ms := fun h => hmemF (mem_firstUniq.mpr h)
      have hF : firstUniq (callstacks (ms ++ [em])) =
          firstUniq (callstacks ms) ++ [em.2.callstack] := by
        rw [callstacks_append, firstUniq_append_singleton, if_neg hmemCS]
      rw [add_memcontext_fresh hlk]
      refine ⟨?_, ?_, ?_, ?_⟩
      · show (processAll ms).info.uid_count + 1 = _
        rw [hF, List.length_append, ih1]
        rfl
      · show (processAll ms).info.uids ++
            [(em.2.callstack, (processAll ms).info.uid_count + 1)] = _
        rw [hF, uidAssoc_append, ih2, ih1]
        show _ ++ [(em.2.callstack, (firstUniq (callstacks ms)).length + 1)] =
          _ ++ [(em.2.callstack, 1 + (firstUniq (callstacks ms)).length)]
        rw [Nat.add_comm]
      · intro c' u' h'
        have h'' : alLookup ((processAll ms).info.uids ++
            [(em.2.callstack, (processAll ms).info.uid_count + 1)]) c' = some u' := h'
        rw [alLookup_append] at h''
        cases holk : alLookup (processAll ms).info.uids c' with
        | some w =>
          rw [holk] at h''
          have hu : u' = w := (Option.some.inj h'').symm
          have hcne : c' ≠ em.2.callstack := by
            intro he
            rw [he, hlk] at holk
            exact Option.noConfusion holk
          have holk2 : alLookup (uidAssoc (firstUniq (callstacks ms)) 1) c' = some w := by
            rw [← ih2]; exact holk
          have hbound := alLookup_uidAssoc_bound holk2
          rw [← ih1] at hbound
          show alLookup (alPush2 (processAll ms).data
            (natKey ((processAll ms).info.uid_count + 1)) _ _) (natKey u') = _
          rw [hu]
          rw [alLookup_alPush2_ne (fun he => by have := natKey_inj he; omega)]
          rw [ih3 _ _ holk]
          rw [ctxSamples_append_singleton,
            if_neg (by simpa using fun h => hcne h.symm), List.append_nil]
        | none =>
          rw [holk] at h''
          have h3 : (if em.2.callstack == c' then
              some ((processAll ms).info.uid_count + 1) else none) = some u' := h''
          by_cases hce : em.2.callstack = c'
          · rw [if_pos (by simpa using hce)] at h3
            have hu : u' = (processAll ms).info.uid_count + 1 := (Option.some.inj h3).symm
            show alLookup (alPush2 (processAll ms).data
              (natKey ((processAll ms).info.uid_count + 1)) _ _) (natKey u') = _
            rw [hu, alLookup_alPush2_self]
            have hdn : alLookup (processAll ms).data
                (natKey ((processAll ms).info.uid_count + 1)) = none := by
              cases hdd : alLookup (processAll ms).data
                  (natKey ((processAll ms).info.uid_count + 1)) with
              | none => rfl
              | some vv =>
                obtain ⟨c0, u0, hc0, hk0⟩ := ih4 _ _ hdd
                have hc02 : alLookup (uidAssoc (firstUniq (callstacks ms)) 1) c0 =
                    some u0 := by rw [← ih2]; exact hc0
                have hb := alLookup_uidAssoc_bound hc02
                rw [← ih1] at hb
                have := natKey_inj hk0
                omega
            rw [hdn]
            rw [← hce]
            rw [ctxSamples_append_singleton, if_pos (by simp),
              ctxSamples_nil_of_not_mem hmemCS]
            rfl
          · rw [if_neg (by simpa using hce)] at h3
            exact Option.noConfusion h3
      · intro k v h'
        by_cases hk : k = natKey ((processAll ms).info.uid_count + 1)
        · refine ⟨em.2.callstack, (processAll ms).info.uid_count + 1, ?_, hk⟩
          show alLookup ((processAll ms).info.uids ++
            [(em.2.callstack, (processAll ms).info.uid_count + 1)]) em.2.callstack = _
          rw [alLookup_append, hlk]
          show (if em.2.callstack == em.2.callstack then _ else none) = _
          rw [if_pos (by simp)]
        · have h'' : alLookup (alPush2 (processAll ms).data
              (natKey ((processAll ms).info.uid_count + 1)) _ _) k = some v := h'
          rw [alLookup_alPush2_ne (fun he => hk he.symm)] at h''
          obtain ⟨c0, u0, hc0, hk0⟩ := ih4 _ _ h''
          refine ⟨c0, u0, ?_, hk0⟩
          show alLookup ((processAll ms).info.uids ++
            [(em.2.callstack, (processAll ms).info.uid_count + 1)]) c0 = _
          rw [alLookup_append, hc0]

/-- C1: after dispatching any sequence of completed blocks, the Identity
Registry binds the distinct callstack texts, in first-seen order, to the
uids `1, 2, 3, …` — so two blocks with byte-identical callstack text (the
exact `String`, whitespace and newlines included) resolve to the same uid,
uids are positive and assigned in first-seen order starting at 1; the
registry after any prefix of the sequence is a prefix of the final registry
(entries are never removed or renumbered); and the series keyed by a
registered uid accumulates exactly the samples of all blocks carrying that
callstack, in order. -/
theorem c1_identity_registry (ms : List (Int × Memcontext)) :
    (processAll ms).info.uids = uidAssoc (firstUniq (callstacks ms)) 1 ∧
    (∀ p q, ms = p ++ q →
      ∃ ext, (processAll ms).info.uids = (processAll p).info.uids ++ ext) ∧
    (∀ c u, alLookup (processAll ms).info.uids c = some u →
      alLookup (processAll ms).data (natKey u) = some (ctxSamples ms c)) := by
  obtain ⟨h1, h2, h3, h4⟩ := processAll_char ms
  refine ⟨h2, ?_, h3⟩
  intro p q hpq
  obtain ⟨hp1, hp2, -, -⟩ := processAll_char p
  subst hpq
  obtain ⟨e, he⟩ := firstUniq_mono (callstacks p) (callstacks q)
  have hcs : callstacks (p ++ q) = callstacks p ++ callstacks q := by
    unfold callstacks
    rw [List.map_append]
  rw [h2, hp2, hcs, he, uidAssoc_append]
  exact ⟨_, rfl⟩

/-- Witness for C1 at a concrete dispatch sequence: two blocks share the
callstack `"a\nb\n\n"` (uid 1, samples from both accumulated in order) and
one carries `"c\n\n"` (uid 2); the two-block prefix's registry is a prefix
of the final one. -/
theorem c1_identity_registry_witness :
    (processAll [(0, { allocs := 1, bytes := 2000, callstack := "a\nb\n\n" }),
        (3600, { allocs := 2, bytes := 500, callstack := "c\n\n" }),
        (7200, { allocs := 3, bytes := 1500, callstack := "a\nb\n\n" })]).info.uids =
      [("a\nb\n\n", 1), ("c\n\n", 2)] ∧
    (∃ ext,
      (processAll [(0, { allocs := 1, bytes := 2000, callstack := "a\nb\n\n" }),
          (3600, { allocs := 2, bytes := 500, callstack := "c\n\n" }),
          (7200, { allocs := 3, bytes := 1500, callstack := "a\nb\n\n" })]).info.uids =
        (processAll [(0, { allocs := 1, bytes := 2000, callstack := "a\nb\n\n" }),
          (3600, { allocs := 2, bytes := 500, callstack := "c\n\n" })]).info.uids ++ ext) ∧
    alLookup (processAll [(0, { allocs := 1, bytes := 2000, callstack := "a\nb\n\n" }),
        (3600, { allocs := 2, bytes := 500, callstack := "c\n\n" }),
        (7200, { allocs := 3, bytes := 1500, callstack := "a\nb\n\n" })]).data
      (natKey 1) = some [0, 2, 2, Rat.divInt 1500 1000] := by
  obtain ⟨h1, h2, h3⟩ := c1_identity_registry
    [(0, { allocs := 1, bytes := 2000, callstack := "a\nb\n\n" }),
     (3600, { allocs := 2, bytes := 500, callstack := "c\n\n" }),
     (7200, { allocs := 3, bytes := 1500, callstack := "a\nb\n\n" })]
  refine ⟨by decide, ?_, ?_⟩
  · exact h2 [(0, { allocs := 1, bytes := 2000, callstack := "a\nb\n\n" }),
      (3600, { allocs := 2, bytes := 500, callstack := "c\n\n" })]
      [(7200, { allocs := 3, bytes := 1500, callstack := "a\nb\n\n" })] rfl
  · have h := h3 "a\nb\n\n" 1 (by decide)
    rw [h]
    decide

/-! ### C10 -/

theorem dropLit_sound {lit cs r : List Char} (h : dropLit lit cs = some r) :
    cs = lit ++ r := by
  induction lit generalizing cs with
  | nil => cases h; rfl
  | cons x ls ih =>
    cases cs with
    | nil => exact Option.noConfusion h
    | cons c t =>
      unfold dropLit at h
      by_cases hc : c = x
      · rw [if_pos hc] at h
        rw [hc, List.cons_append, ih h]
      · rw [if_neg hc] at h
        exact Option.noConfusion h

theorem dropLit_self (lit r : List Char) : dropLit lit (lit ++ r) = some r := by
  induction lit with
  | nil => rfl
  | cons x ls ih =>
    show (if x = x then dropLit ls (ls ++ r) else none) = some r
    rw [if_pos rfl, ih]

theorem takeDigits_cons_digit {c : Char} {t : List Char} (hc : c.isDigit = true) :
    takeDigits (c :: t) = (c :: (takeDigits t).1, (takeDigits t).2) := by
  cases htd : takeDigits t with
  | mk d r =>
    show takeDigits (c :: t) = (c :: (d, r).1, (d, r).2)
    unfold takeDigits
    rw [if_pos hc, htd]

theorem takeDigits_cons_nondigit {c : Char} {t : List Char} (hc : c.isDigit = false) :
    takeDigits (c :: t) = ([], c :: t) := by
  unfold takeDigits
  rw [if_neg (by simp [hc])]

theorem takeDigits_sound (cs : List Char) :
    cs = (takeDigits cs).1 ++ (takeDigits cs).2 ∧
    (∀ c ∈ (takeDigits cs).1, c.isDigit = true) ∧
    (∀ x xs, (takeDigits cs).2 = x :: xs → x.isDigit = false) := by
  induction cs with
  | nil =>
    refine ⟨rfl, ?_, ?_⟩
    · intro c h
      cases h
    · intro x xs h
      cases h
  | cons c t ih =>
    obtain ⟨ih1, ih2, ih3⟩ := ih
    by_cases hc : c.isDigit = true
    · rw [takeDigits_cons_digit hc]
      refine ⟨?_, ?_, ?_⟩
      · show c :: t = c :: ((takeDigits t).1 ++ (takeDigits t).2)
        rw [← ih1]
      · intro d hd
        rcases List.mem_cons.mp hd with rfl | hd
        · exact hc
        · exact ih2 d hd
      · exact ih3
    · rw [takeDigits_cons_nondigit (by simpa using hc)]
      refine ⟨rfl, ?_, ?_⟩
      · intro d hd
        cases hd
      · intro x xs h
        cases h
        simpa using hc

theorem takeDigits_digits_cons {d : List Char} {x : Char} (r : List Char)
    (hd : ∀ c ∈ d, c.isDigit = true) (hx : x.isDigit = false) :
    takeDigits (d ++ x :: r) = (d, x :: r) := by
  induction d with
  | nil => exact takeDigits_cons_nondigit hx
  | cons c t ih =>
    have hc : c.isDigit = true := hd c (List.mem_cons_self _ _)
    show takeDigits (c :: (t ++ x :: r)) = _
    rw [takeDigits_cons_digit hc, ih (fun e he => hd e (List.mem_cons_of_mem _ he))]

/-- A character list starting with a digit. -/
def digitStart (t : List Char) : Prop := ∃ d ds, t = d :: ds ∧ d.isDigit = true

theorem dropLit_common (lit q t1 t2 : List Char)
    (hlit : ∀ c ∈ lit, c.isDigit = false)
    (h1 : digitStart t1) (h2 : digitStart t2) :
    (dropLit lit (q ++ t1) = none ∧ dropLit lit (q ++ t2) = none) ∨
    (∃ u, dropLit lit (q ++ t1) = some (u ++ t1) ∧ dropLit lit (q ++ t2) = some (u ++ t2)) := by
  induction lit generalizing q with
  | nil => exact Or.inr ⟨q, rfl, rfl⟩
  | cons x ls ih =>
    cases q with
    | nil =>
      obtain ⟨d1, ds1, he1, hd1⟩ := h1
      obtain ⟨d2, ds2, he2, hd2⟩ := h2
      have hx : x.isDigit = false := hlit x (List.mem_cons_self _ _)
      refine Or.inl ⟨?_, ?_⟩
      · show dropLit (x :: ls) ([] ++ t1) = none
        rw [List.nil_append, he1]
        show (if d1 = x then _ else none) = none
        rw [if_neg (fun he => by rw [he] at hd1; rw [hd1] at hx; exact Bool.noConfusion hx)]
      · show dropLit (x :: ls) ([] ++ t2) = none
        rw [List.nil_append, he2]
        show (if d2 = x then _ else none) = none
        rw [if_neg (fun he => by rw [he] at hd2; rw [hd2] at hx; exact Bool.noConfusion hx)]
    | cons c q' =>
      by_cases hc : c = x
      · have e1 : dropLit (x :: ls) ((c :: q') ++ t1) = dropLit ls (q' ++ t1) := by
          show (if c = x then _ else none) = _
          rw [if_pos hc]
          rfl
        have e2 : dropLit (x :: ls) ((c :: q') ++ t2) = dropLit ls (q' ++ t2) := by
          show (if c = x then _ else none) = _
          rw [if_pos hc]
          rfl
        rw [e1, e2]
        exact ih q' (fun e he => hlit e (List.mem_cons_of_mem _ he))
      · refine Or.inl ⟨?_, ?_⟩
        · show (if c = x then _ else none) = none
          rw [if_neg hc]
        · show (if c = x then _ else none) = none
          rw [if_neg hc]

theorem dropLit_lit2_lit1 (z : List Char) :
    dropLit " bytes were not free".data (" allocs, ".data ++ z) = none := rfl

theorem dropLit_bytes_lit1 (z : List Char) :
    dropLit " bytes".data (" allocs, ".data ++ z) = none := rfl

/-- The character shape of a context-header occurrence: a digit run for the
allocs group, the fixed middle text, a digit run for the bytes group, the
fixed trailing text, then arbitrary trailing characters. -/
def hdrShape (n m tail : List Char) : List Char :=
  n ++ (" allocs, ".data ++ (m ++ (" bytes were not free".data ++ tail)))

theorem isEmpty_append_cons (A : List Char) {B : List Char} (hB : B ≠ []) :
    (A ++ B).isEmpty = false := by
  cases A with
  | nil =>
    cases B with
    | nil => exact absurd rfl hB
    | cons b bs => rfl
  | cons a as => rfl

theorem isEmpty_false_of_ne {B : List Char} (hB : B ≠ []) : B.isEmpty = false := by
  cases B with
  | nil => exact absurd rfl hB
  | cons b bs => rfl

theorem obind_some {A B : Type} (a : A) (f : A → Option B) : (some a).bind f = f a := rfl

theorem obind_none {A B : Type} (f : A → Option B) : (none : Option A).bind f = none := rfl

theorem omap_some {A B : Type} (a : A) (f : A → B) : (some a).map f = some (f a) := rfl

theorem omap_none {A B : Type} (f : A → B) : (none : Option A).map f = none := rfl

theorem oorelse_some {A : Type} (a : A) (f : Unit → Option A) :
    (some a).orElse f = some a := rfl

theorem oorelse_none {A : Type} (f : Unit → Option A) :
    (none : Option A).orElse f = f () := rfl

theorem pfst {A B : Type} {p : A × B} {a : A} {b : B} (h : p = (a, b)) : p.1 = a := by
  rw [h]

theorem psnd {A B : Type} {p : A × B} {a : A} {b : B} (h : p = (a, b)) : p.2 = b := by
  rw [h]

theorem digitStart_hdrShape {n : List Char} (m tail : List Char) (hn : n ≠ [])
    (hnd : ∀ c ∈ n, c.isDigit = true) : digitStart (hdrShape n m tail) := by
  cases n with
  | nil => exact absurd rfl hn
  | cons d n' => exact ⟨d, _, rfl, hnd d (List.mem_cons_self _ _)⟩

theorem takeDigits_hdrShape {n : List Char} (m tail : List Char)
    (hnd : ∀ c ∈ n, c.isDigit = true) :
    takeDigits (hdrShape n m tail) =
      (n, " allocs, ".data ++ (m ++ (" bytes were not free".data ++ tail))) := by
  show takeDigits (n ++ (" allocs, ".data ++ (m ++ (" bytes were not free".data ++ tail)))) = _
  rw [show " allocs, ".data ++ (m ++ (" bytes were not free".data ++ tail)) =
      ' ' :: ("allocs, ".data ++ (m ++ (" bytes were not free".data ++ tail))) from rfl]
  exact takeDigits_digits_cons _ hnd (by decide)

theorem takeDigits_bytesShape {m : List Char} (tail : List Char)
    (hmd : ∀ c ∈ m, c.isDigit = true) :
    takeDigits (m ++ (" bytes were not free".data ++ tail)) =
      (m, " bytes were not free".data ++ tail) := by
  rw [show " bytes were not free".data ++ tail =
      ' ' :: ("bytes were not free".data ++ tail) from rfl]
  exact takeDigits_digits_cons _ hmd (by decide)

theorem matchAt_shape {n m : List Char} (tail : List Char) (hn : n ≠ [])
    (hnd : ∀ c ∈ n, c.isDigit = true) (hm : m ≠ []) (hmd : ∀ c ∈ m, c.isDigit = true) :
    matchAt (hdrShape n m tail) = some (digitsToNat n, digitsToNat m) := by
  unfold matchAt
  rw [pfst (takeDigits_hdrShape m tail hnd), psnd (takeDigits_hdrShape m tail hnd)]
  rw [isEmpty_false_of_ne hn, if_neg (by decide : ¬(false = true))]
  rw [dropLit_self, obind_some]
  rw [pfst (takeDigits_bytesShape tail hmd), psnd (takeDigits_bytesShape tail hmd)]
  rw [isEmpty_false_of_ne hm, if_neg (by decide : ¬(false = true))]
  rw [dropLit_self, omap_some]

theorem matchAt_swap {n1 n2 m : List Char} (q tail : List Char)
    (hn1 : n1 ≠ []) (hn1d : ∀ c ∈ n1, c.isDigit = true)
    (hn2 : n2 ≠ []) (hn2d : ∀ c ∈ n2, c.isDigit = true)
    (hm : m ≠ []) (hmd : ∀ c ∈ m, c.isDigit = true) :
    (matchAt (q ++ hdrShape n1 m tail) = none ∧ matchAt (q ++ hdrShape n2 m tail) = none) ∨
    (∃ a1 a2 b, matchAt (q ++ hdrShape n1 m tail) = some (a1, b) ∧
      matchAt (q ++ hdrShape n2 m tail) = some (a2, b)) := by
  obtain ⟨hq1, hq2, hq3⟩ := takeDigits_sound q
  cases hqr : (takeDigits q).2 with
  | nil =>
    have hqeq : q = (takeDigits q).1 := by
      conv =>
        lhs
        rw [hq1]
      rw [hqr, List.append_nil]
    have htd : ∀ n : List Char, (∀ c ∈ n, c.isDigit = true) →
        takeDigits (q ++ hdrShape n m tail) =
          ((takeDigits q).1 ++ n,
            " allocs, ".data ++ (m ++ (" bytes were not free".data ++ tail))) := by
      intro n hnd
      have e : q ++ hdrShape n m tail = ((takeDigits q).1 ++ n) ++
          (' ' :: ("allocs, ".data ++ (m ++ (" bytes were not free".data ++ tail)))) := by
        conv =>
          lhs
          rw [hqeq]
        rw [List.append_assoc]
        rfl
      rw [e]
      exact takeDigits_digits_cons _
        (by
          intro c hc
          rcases List.mem_append.mp hc with hc | hc
          · exact hq2 c hc
          · exact hnd c hc)
        (by decide)
    refine Or.inr ⟨digitsToNat ((takeDigits q).1 ++ n1),
      digitsToNat ((takeDigits q).1 ++ n2), digitsToNat m, ?_, ?_⟩
    · unfold matchAt
      rw [pfst (htd n1 hn1d), psnd (htd n1 hn1d)]
      rw [isEmpty_append_cons _ hn1, if_neg (by decide : ¬(false = true))]
      rw [dropLit_self, obind_some]
      rw [pfst (takeDigits_bytesShape tail hmd), psnd (takeDigits_bytesShape tail hmd)]
      rw [isEmpty_false_of_ne hm, if_neg (by decide : ¬(false = true))]
      rw [dropLit_self, omap_some]
    · unfold matchAt
      rw [pfst (htd n2 hn2d), psnd (htd n2 hn2d)]
      rw [isEmpty_append_cons _ hn2, if_neg (by decide : ¬(false = true))]
      rw [dropLit_self, obind_some]
      rw [pfst (takeDigits_bytesShape tail hmd), psnd (takeDigits_bytesShape tail hmd)]
      rw [isEmpty_false_of_ne hm, if_neg (by decide : ¬(false = true))]
      rw [dropLit_self, omap_some]
  | cons x qr' =>
    have hx : x.isDigit = false := hq3 x qr' hqr
    have htd : ∀ n : List Char, (∀ c ∈ n, c.isDigit = true) →
        takeDigits (q ++ hdrShape n m tail) =
          ((takeDigits q).1, (x :: qr') ++ hdrShape n m tail) := by
      intro n hnd
      have e : q ++ hdrShape n m tail =
          (takeDigits q).1 ++ (x :: (qr' ++ hdrShape n m tail)) := by
        conv =>
          lhs
          rw [hq1, hqr]
        rw [List.append_assoc]
        rfl
      rw [e, takeDigits_digits_cons _ hq2 hx]
      rfl
    by_cases hqe : (takeDigits q).1.isEmpty = true
    · refine Or.inl ⟨?_, ?_⟩
      · unfold matchAt
        rw [pfst (htd n1 hn1d), if_pos hqe]
      · unfold matchAt
        rw [pfst (htd n2 hn2d), if_pos hqe]
    · rcases dropLit_common " allocs, ".data (x :: qr') (hdrShape n1 m tail)
        (hdrShape n2 m tail) (by decide) (digitStart_hdrShape m tail hn1 hn1d)
        (digitStart_hdrShape m tail hn2 hn2d) with ⟨hd1, hd2⟩ | ⟨u, hd1, hd2⟩
      · refine Or.inl ⟨?_, ?_⟩
        · unfold matchAt
          rw [pfst (htd n1 hn1d), if_neg hqe, psnd (htd n1 hn1d), hd1, obind_none]
        · unfold matchAt
          rw [pfst (htd n2 hn2d), if_neg hqe, psnd (htd n2 hn2d), hd2, obind_none]
      · obtain ⟨hu1, hu2, hu3⟩ := takeDigits_sound u
        cases hur : (takeDigits u).2 with
        | nil =>
          have hueq : u = (takeDigits u).1 := by
            conv =>
              lhs
              rw [hu1]
            rw [hur, List.append_nil]
          have htd2 : ∀ n : List Char, (∀ c ∈ n, c.isDigit = true) →
              takeDigits (u ++ hdrShape n m tail) =
                ((takeDigits u).1 ++ n,
                  " allocs, ".data ++ (m ++ (" bytes were not free".data ++ tail))) := by
            intro n hnd
            have e : u ++ hdrShape n m tail = ((takeDigits u).1 ++ n) ++
                (' ' :: ("allocs, ".data ++
                  (m ++ (" bytes were not free".data ++ tail)))) := by
              conv =>
                lhs
                rw [hueq]
              rw [List.append_assoc]
              rfl
            rw [e]
            exact takeDigits_digits_cons _
              (by
                intro c hc
                rcases List.mem_append.mp hc with hc | hc
                · exact hu2 c hc
                · exact hnd c hc)
              (by decide)
          refine Or.inl ⟨?_, ?_⟩
          · unfold matchAt
            rw [pfst (htd n1 hn1d), if_neg hqe, psnd (htd n1 hn1d), hd1, obind_some]
            rw [pfst (htd2 n1 hn1d), isEmpty_append_cons _ hn1,
              if_neg (by decide : ¬(false = true))]
            rw [psnd (htd2 n1 hn1d), dropLit_lit2_lit1, omap_none]
          · unfold matchAt
            rw [pfst (htd n2 hn2d), if_neg hqe, psnd (htd n2 hn2d), hd2, obind_some]
            rw [pfst (htd2 n2 hn2d), isEmpty_append_cons _ hn2,
              if_neg (by decide : ¬(false = true))]
            rw [psnd (htd2 n2 hn2d), dropLit_lit2_lit1, omap_none]
        | cons x' ur' =>
          have hx' : x'.isDigit = false := hu3 x' ur' hur
          have htd2 : ∀ n : List Char, (∀ c ∈ n, c.isDigit = true) →
              takeDigits (u ++ hdrShape n m tail) =
                ((takeDigits u).1, (x' :: ur') ++ hdrShape n m tail) := by
            intro n hnd
            have e : u ++ hdrShape n m tail =
                (takeDigits u).1 ++ (x' :: (ur' ++ hdrShape n m tail)) := by
              conv =>
                lhs
                rw [hu1, hur]
              rw [List.append_assoc]
              rfl
            rw [e, takeDigits_digits_cons _ hu2 hx']
            rfl
          by_cases hue : (takeDigits u).1.isEmpty = true
          · refine Or.inl ⟨?_, ?_⟩
            · unfold matchAt
              rw [pfst (htd n1 hn1d), if_neg hqe, psnd (htd n1 hn1d), hd1, obind_some]
              rw [pfst (htd2 n1 hn1d), if_pos hue]
            · unfold matchAt
              rw [pfst (htd n2 hn2d), if_neg hqe, psnd (htd n2 hn2d), hd2, obind_some]
              rw [pfst (htd2 n2 hn2d), if_pos hue]
          · rcases dropLit_common " bytes were not free".data (x' :: ur')
              (hdrShape n1 m tail) (hdrShape n2 m tail) (by decide)
              (digitStart_hdrShape m tail hn1 hn1d)
              (digitStart_hdrShape m tail hn2 hn2d) with ⟨he1, he2⟩ | ⟨w, he1, he2⟩
            · refine Or.inl ⟨?_, ?_⟩
              · unfold matchAt
                rw [pfst (htd n1 hn1d), if_neg hqe, psnd (htd n1 hn1d), hd1, obind_some]
                rw [pfst (htd2 n1 hn1d), if_neg hue]
                rw [psnd (htd2 n1 hn1d), he1, omap_none]
              · unfold matchAt
                rw [pfst (htd n2 hn2d), if_neg hqe, psnd (htd n2 hn2d), hd2, obind_some]
                rw [pfst (htd2 n2 hn2d), if_neg hue]
                rw [psnd (htd2 n2 hn2d), he2, omap_none]
            · refine Or.inr ⟨digitsToNat (takeDigits q).1, digitsToNat (takeDigits q).1,
                digitsToNat (takeDigits u).1, ?_, ?_⟩
              · unfold matchAt
                rw [pfst (htd n1 hn1d), if_neg hqe, psnd (htd n1 hn1d), hd1, obind_some]
                rw [pfst (htd2 n1 hn1d), if_neg hue]
                rw [psnd (htd2 n1 hn1d), he1, omap_some]
              · unfold matchAt
                rw [pfst (htd n2 hn2d), if_neg hqe, psnd (htd n2 hn2d), hd2, obind_some]
                rw [pfst (htd2 n2 hn2d), if_neg hue]
                rw [psnd (htd2 n2 hn2d), he2, omap_some]

theorem findHeader_cons (c : Char) (cs : List Char) :
    findHeader (c :: cs) = (matchAt (c :: cs)).orElse fun _ => findHeader cs := rfl

theorem findBytes_cons (c : Char) (cs : List Char) :
    findBytes (c :: cs) = (bytesAt (c :: cs)).orElse fun _ => findBytes cs := rfl

theorem findHeader_shape {n m : List Char} (tail : List Char) (hn : n ≠ [])
    (hnd : ∀ c ∈ n, c.isDigit = true) (hm : m ≠ []) (hmd : ∀ c ∈ m, c.isDigit = true) :
    findHeader (hdrShape n m tail) = some (digitsToNat n, digitsToNat m) := by
  cases n with
  | nil => exact absurd rfl hn
  | cons d n' =>
    have e : hdrShape (d :: n') m tail =
        d :: (n' ++ (" allocs, ".data ++ (m ++ (" bytes were not free".data ++ tail)))) := rfl
    rw [e, findHeader_cons, ← e, matchAt_shape tail hn hnd hm hmd, oorelse_some]

theorem findHeader_swap {n1 n2 m : List Char} (pre tail : List Char)
    (hn1 : n1 ≠ []) (hn1d : ∀ c ∈ n1, c.isDigit = true)
    (hn2 : n2 ≠ []) (hn2d : ∀ c ∈ n2, c.isDigit = true)
    (hm : m ≠ []) (hmd : ∀ c ∈ m, c.isDigit = true) :
    ∃ a1 a2 b, findHeader (pre ++ hdrShape n1 m tail) = some (a1, b) ∧
      findHeader (pre ++ hdrShape n2 m tail) = some (a2, b) := by
  induction pre with
  | nil =>
    rw [List.nil_append, List.nil_append]
    exact ⟨digitsToNat n1, digitsToNat n2, digitsToNat m,
      findHeader_shape tail hn1 hn1d hm hmd, findHeader_shape tail hn2 hn2d hm hmd⟩
  | cons p pre' ih =>
    rcases matchAt_swap (q := p :: pre') tail hn1 hn1d hn2 hn2d hm hmd with
      ⟨hm1, hm2⟩ | ⟨a1, a2, b, hm1, hm2⟩
    · obtain ⟨a1, a2, b, h1, h2⟩ := ih
      refine ⟨a1, a2, b, ?_, ?_⟩
      · rw [List.cons_append, findHeader_cons, ← List.cons_append, hm1, oorelse_none]
        exact h1
      · rw [List.cons_append, findHeader_cons, ← List.cons_append, hm2, oorelse_none]
        exact h2
    · refine ⟨a1, a2, b, ?_, ?_⟩
      · rw [List.cons_append, findHeader_cons, ← List.cons_append, hm1, oorelse_some]
      · rw [List.cons_append, findHeader_cons, ← List.cons_append, hm2, oorelse_some]

theorem bytesAt_swap {n1 n2 m : List Char} (q tail : List Char)
    (hn1 : n1 ≠ []) (hn1d : ∀ c ∈ n1, c.isDigit = true)
    (hn2 : n2 ≠ []) (hn2d : ∀ c ∈ n2, c.isDigit = true)
    (hm : m ≠ []) (hmd : ∀ c ∈ m, c.isDigit = true) :
    (bytesAt (q ++ hdrShape n1 m tail) = none ∧ bytesAt (q ++ hdrShape n2 m tail) = none) ∨
    (∃ b, bytesAt (q ++ hdrShape n1 m tail) = some b ∧
      bytesAt (q ++ hdrShape n2 m tail) = some b) := by
  obtain ⟨hq1, hq2, hq3⟩ := takeDigits_sound q
  cases hqr : (takeDigits q).2 with
  | nil =>
    have hqeq : q = (takeDigits q).1 := by
      conv =>
        lhs
        rw [hq1]
      rw [hqr, List.append_nil]
    have htd : ∀ n : List Char, (∀ c ∈ n, c.isDigit = true) →
        takeDigits (q ++ hdrShape n m tail) =
          ((takeDigits q).1 ++ n,
            " allocs, ".data ++ (m ++ (" bytes were not free".data ++ tail))) := by
      intro n hnd
      have e : q ++ hdrShape n m tail = ((takeDigits q).1 ++ n) ++
          (' ' :: ("allocs, ".data ++ (m ++ (" bytes were not free".data ++ tail)))) := by
        conv =>
          lhs
          rw [hqeq]
        rw [List.append_assoc]
        rfl
      rw [e]
      exact takeDigits_digits_cons _
        (by
          intro c hc
          rcases List.mem_append.mp hc with hc | hc
          · exact hq2 c hc
          · exact hnd c hc)
        (by decide)
    refine Or.inl ⟨?_, ?_⟩
    · unfold bytesAt
      rw [pfst (htd n1 hn1d), isEmpty_append_cons _ hn1, if_neg (by decide : ¬(false = true))]
      rw [psnd (htd n1 hn1d), dropLit_bytes_lit1, omap_none]
    · unfold bytesAt
      rw [pfst (htd n2 hn2d), isEmpty_append_cons _ hn2, if_neg (by decide : ¬(false = true))]
      rw [psnd (htd n2 hn2d), dropLit_bytes_lit1, omap_none]
  | cons x qr' =>
    have hx : x.isDigit = false := hq3 x qr' hqr
    have htd : ∀ n : List Char, (∀ c ∈ n, c.isDigit = true) →
        takeDigits (q ++ hdrShape n m tail) =
          ((takeDigits q).1, (x :: qr') ++ hdrShape n m tail) := by
      intro n hnd
      have e : q ++ hdrShape n m tail =
          (takeDigits q).1 ++ (x :: (qr' ++ hdrShape n m tail)) := by
        conv =>
          lhs
          rw [hq1, hqr]
        rw [List.append_assoc]
        rfl
      rw [e, takeDigits_digits_cons _ hq2 hx]
      rfl
    by_cases hqe : (takeDigits q).1.isEmpty = true
    · refine Or.inl ⟨?_, ?_⟩
      · unfold bytesAt
        rw [pfst (htd n1 hn1d), if_pos hqe]
      · unfold bytesAt
        rw [pfst (htd n2 hn2d), if_pos hqe]
    · rcases dropLit_common " bytes".data (x :: qr') (hdrShape n1 m tail)
        (hdrShape n2 m tail) (by decide) (digitStart_hdrShape m tail hn1 hn1d)
        (digitStart_hdrShape m tail hn2 hn2d) with ⟨hd1, hd2⟩ | ⟨u, hd1, hd2⟩
      · refine Or.inl ⟨?_, ?_⟩
        · unfold bytesAt
          rw [pfst (htd n1 hn1d), if_neg hqe, psnd (htd n1 hn1d), hd1, omap_none]
        · unfold bytesAt
          rw [pfst (htd n2 hn2d), if_neg hqe, psnd (htd n2 hn2d), hd2, omap_none]
      · refine Or.inr ⟨digitsToNat (takeDigits q).1, ?_, ?_⟩
        · unfold bytesAt
          rw [pfst (htd n1 hn1d), if_neg hqe, psnd (htd n1 hn1d), hd1, omap_some]
        · unfold bytesAt
          rw [pfst (htd n2 hn2d), if_neg hqe, psnd (htd n2 hn2d), hd2, omap_some]

theorem findBytes_digits_lit1 {n : List Char} (rest : List Char)
    (hnd : ∀ c ∈ n, c.isDigit = true) :
    findBytes (n ++ (" allocs, ".data ++ rest)) = findBytes (" allocs, ".data ++ rest) := by
  induction n with
  | nil => rw [List.nil_append]
  | cons d n' ih =>
    have htake : takeDigits (d :: (n' ++ (" allocs, ".data ++ rest))) =
        (d :: n', " allocs, ".data ++ rest) := by
      show takeDigits ((d :: n') ++ (" allocs, ".data ++ rest)) = _
      rw [show " allocs, ".data ++ rest = ' ' :: ("allocs, ".data ++ rest) from rfl]
      exact takeDigits_digits_cons _ hnd (by decide)
    have hba : bytesAt (d :: (n' ++ (" allocs, ".data ++ rest))) = none := by
      unfold bytesAt
      rw [pfst htake, isEmpty_false_of_ne (by exact fun h => List.noConfusion h),
        if_neg (by decide : ¬(false = true))]
      rw [psnd htake, dropLit_bytes_lit1, omap_none]
    rw [List.cons_append, findBytes_cons, hba, oorelse_none]
    exact ih (fun c hc => hnd c (List.mem_cons_of_mem _ hc))

theorem findBytes_swap {n1 n2 m : List Char} (pre tail : List Char)
    (hn1 : n1 ≠ []) (hn1d : ∀ c ∈ n1, c.isDigit = true)
    (hn2 : n2 ≠ []) (hn2d : ∀ c ∈ n2, c.isDigit = true)
    (hm : m ≠ []) (hmd : ∀ c ∈ m, c.isDigit = true) :
    findBytes (pre ++ hdrShape n1 m tail) = findBytes (pre ++ hdrShape n2 m tail) := by
  induction pre with
  | nil =>
    rw [List.nil_append, List.nil_append]
    show findBytes (n1 ++ (" allocs, ".data ++ (m ++ (" bytes were not free".data ++ tail)))) =
      findBytes (n2 ++ (" allocs, ".data ++ (m ++ (" bytes were not free".data ++ tail))))
    rw [findBytes_digits_lit1 _ hn1d, findBytes_digits_lit1 _ hn2d]
  | cons p pre' ih =>
    rw [List.cons_append, List.cons_append, findBytes_cons, findBytes_cons,
      ← List.cons_append, ← List.cons_append]
    rcases bytesAt_swap (q := p :: pre') tail hn1 hn1d hn2 hn2d hm hmd with
      ⟨h1, h2⟩ | ⟨b, h1, h2⟩
    · rw [h1, h2, oorelse_none, oorelse_none]
      exact ih
    · rw [h1, h2, oorelse_some, oorelse_some]

theorem obind_eq_some {A B : Type} {x : Option A} {f : A → Option B} {b : B}
    (h : x.bind f = some b) : ∃ a, x = some a ∧ f a = some b := by
  cases x with
  | none => exact Option.noConfusion h
  | some a => exact ⟨a, rfl, h⟩

theorem matchNameAux_sound {names : List String} {i j : Nat} {cs r : List Char}
    (h : matchNameAux names i cs = some (j, r)) :
    ∃ nm ∈ names, cs = nm.data ++ r := by
  induction names generalizing i with
  | nil => exact Option.noConfusion h
  | cons n ns ih =>
    have h' : (match dropLit n.data cs with
        | some r' => some (i, r')
        | none => matchNameAux ns (i + 1) cs) = some (j, r) := h
    cases hd : dropLit n.data cs with
    | some r' =>
      rw [hd] at h'
      cases h'
      exact ⟨n, List.mem_cons_self _ _, dropLit_sound hd⟩
    | none =>
      rw [hd] at h'
      obtain ⟨nm, hnm, he⟩ := ih h'
      exact ⟨nm, List.mem_cons_of_mem _ hnm, he⟩

theorem skipWs_sound (cs : List Char) :
    ∃ w, cs = w ++ skipWs cs ∧ ∀ c ∈ w, c.isWhitespace = true := by
  induction cs with
  | nil => exact ⟨[], rfl, by intro c h; cases h⟩
  | cons c t ih =>
    by_cases hw : c.isWhitespace = true
    · have e : skipWs (c :: t) = skipWs t := by
        show (if c.isWhitespace then skipWs t else c :: t) = skipWs t
        rw [if_pos hw]
      obtain ⟨w, he, hwh⟩ := ih
      refine ⟨c :: w, ?_, ?_⟩
      · rw [e, List.cons_append, ← he]
      · intro d hd
        rcases List.mem_cons.mp hd with rfl | hd
        · exact hw
        · exact hwh d hd
    · have e : skipWs (c :: t) = c :: t := by
        show (if c.isWhitespace then skipWs t else c :: t) = c :: t
        rw [if_neg hw]
      refine ⟨[], by rw [e, List.nil_append], by intro d hd; cases hd⟩

theorem takeUpTo_sound (k : Nat) (cs : List Char) :
    cs = (takeUpTo k cs).1 ++ (takeUpTo k cs).2 ∧
    ∀ c ∈ (takeUpTo k cs).1, c.isDigit = true := by
  induction k generalizing cs with
  | zero => exact ⟨rfl, by intro c h; cases h⟩
  | succ k ih =>
    cases cs with
    | nil => exact ⟨rfl, by intro c h; cases h⟩
    | cons c t =>
      by_cases hc : c.isDigit = true
      · have e : takeUpTo (k + 1) (c :: t) = (c :: (takeUpTo k t).1, (takeUpTo k t).2) := by
          show (if c.isDigit then (c :: (takeUpTo k t).1, (takeUpTo k t).2)
            else ([], c :: t)) = (c :: (takeUpTo k t).1, (takeUpTo k t).2)
          rw [if_pos hc]
        rw [e]
        obtain ⟨ih1, ih2⟩ := ih t
        refine ⟨?_, ?_⟩
        · show c :: t = c :: ((takeUpTo k t).1 ++ (takeUpTo k t).2)
          rw [← ih1]
        · intro d hd
          rcases List.mem_cons.mp hd with rfl | hd
          · exact hc
          · exact ih2 d hd
      · have e : takeUpTo (k + 1) (c :: t) = ([], c :: t) := by
          show (if c.isDigit then (c :: (takeUpTo k t).1, (takeUpTo k t).2)
            else ([], c :: t)) = ([], c :: t)
          rw [if_neg hc]
        rw [e]
        exact ⟨rfl, by intro d hd; cases hd⟩

theorem num2_sound {cs r : List Char} {v : Nat} (h : num2 cs = some (v, r)) :
    ∃ d, cs = d ++ r ∧ ∀ c ∈ d, c.isDigit = true := by
  unfold num2 at h
  by_cases he : (takeUpTo 2 cs).1.isEmpty = true
  · rw [if_pos he] at h
    exact Option.noConfusion h
  · rw [if_neg he] at h
    cases h
    obtain ⟨h1, h2⟩ := takeUpTo_sound 2 cs
    exact ⟨(takeUpTo 2 cs).1, h1, h2⟩

theorem isEmpty_true_eq_nil {l : List Char} (h : l.isEmpty = true) : l = [] := by
  cases l with
  | nil => rfl
  | cons a t => exact Bool.noConfusion h

/-- An accepted date string contains no comma: every field of the format
consumes only name characters, whitespace, digits or colons, and the whole
input must be consumed. -/
theorem parse_from_str_no_comma {s : String} {t : Int}
    (h : parse_from_str s = some t) : ',' ∉ s.data := by
  intro hmem
  unfold parse_from_str at h
  obtain ⟨wd, h1, h⟩ := obind_eq_some h
  obtain ⟨mo, h2, h⟩ := obind_eq_some h
  obtain ⟨d, h3, h⟩ := obind_eq_some h
  obtain ⟨hh, h4, h⟩ := obind_eq_some h
  obtain ⟨r5, h5, h⟩ := obind_eq_some h
  obtain ⟨mi, h6, h⟩ := obind_eq_some h
  obtain ⟨r7, h7, h⟩ := obind_eq_some h
  obtain ⟨sec, h8, h⟩ := obind_eq_some h
  by_cases hA : (takeDigits (skipWs sec.2)).1.isEmpty = true
  · rw [if_pos hA] at h
    exact Option.noConfusion h
  · rw [if_neg hA] at h
    by_cases hB : (!(takeDigits (skipWs sec.2)).2.isEmpty) = true
    · rw [if_pos hB] at h
      exact Option.noConfusion h
    · have hr9 : (takeDigits (skipWs sec.2)).2 = [] := by
        refine isEmpty_true_eq_nil ?_
        cases hi : (takeDigits (skipWs sec.2)).2.isEmpty with
        | true => rfl
        | false => rw [hi] at hB; simp at hB
      obtain ⟨wd1, h1v⟩ : ∃ p : Nat × List Char, wd = p := ⟨wd, rfl⟩
      clear h1v
      obtain ⟨nm1, hnm1, e1⟩ := matchNameAux_sound ((by
        cases wd with
        | mk a b => exact h1) : matchNameAux weekdayNames 0 s.data = some (wd.1, wd.2))
      obtain ⟨w1, ew1, hw1⟩ := skipWs_sound wd.2
      obtain ⟨nm2, hnm2, e2⟩ := matchNameAux_sound ((by
        cases mo with
        | mk a b => exact h2) : matchNameAux monthNames 0 (skipWs wd.2) = some (mo.1, mo.2))
      obtain ⟨w2, ew2, hw2⟩ := skipWs_sound mo.2
      obtain ⟨d3, e3, hd3⟩ := num2_sound ((by
        cases d with
        | mk a b => exact h3) : num2 (skipWs mo.2) = some (d.1, d.2))
      obtain ⟨w3, ew3, hw3⟩ := skipWs_sound d.2
      obtain ⟨d4, e4, hd4⟩ := num2_sound ((by
        cases hh with
        | mk a b => exact h4) : num2 (skipWs d.2) = some (hh.1, hh.2))
      have e5 := dropLit_sound h5
      obtain ⟨d6, e6, hd6⟩ := num2_sound ((by
        cases mi with
        | mk a b => exact h6) : num2 r5 = some (mi.1, mi.2))
      have e7 := dropLit_sound h7
      obtain ⟨d8, e8, hd8⟩ := num2_sound ((by
        cases sec with
        | mk a b => exact h8) : num2 r7 = some (sec.1, sec.2))
      obtain ⟨w4, ew4, hw4⟩ := skipWs_sound sec.2
      have e9 := (takeDigits_sound (skipWs sec.2)).1
      have hys := (takeDigits_sound (skipWs sec.2)).2.1
      rw [hr9, List.append_nil] at e9
      have hwdn : ∀ nm ∈ weekdayNames, ',' ∉ nm.data := by decide
      have hmon : ∀ nm ∈ monthNames, ',' ∉ nm.data := by decide
      rw [e1] at hmem
      rcases List.mem_append.mp hmem with hc | hc
      · exact hwdn nm1 hnm1 hc
      rw [ew1] at hc
      rcases List.mem_append.mp hc with hc | hc
      · exact absurd (hw1 _ hc) (by decide)
      rw [e2] at hc
      rcases List.mem_append.mp hc with hc | hc
      · exact hmon nm2 hnm2 hc
      rw [ew2] at hc
      rcases List.mem_append.mp hc with hc | hc
      · exact absurd (hw2 _ hc) (by decide)
      rw [e3] at hc
      rcases List.mem_append.mp hc with hc | hc
      · exact absurd (hd3 _ hc) (by decide)
      rw [ew3] at hc
      rcases List.mem_append.mp hc with hc | hc
      · exact absurd (hw3 _ hc) (by decide)
      rw [e4] at hc
      rcases List.mem_append.mp hc with hc | hc
      · exact absurd (hd4 _ hc) (by decide)
      rw [e5] at hc
      rcases List.mem_append.mp hc with hc | hc
      · exact absurd hc (by decide)
      rw [e6] at hc
      rcases List.mem_append.mp hc with hc | hc
      · exact absurd (hd6 _ hc) (by decide)
      rw [e7] at hc
      rcases List.mem_append.mp hc with hc | hc
      · exact absurd hc (by decide)
      rw [e8] at hc
      rcases List.mem_append.mp hc with hc | hc
      · exact absurd (hd8 _ hc) (by decide)
      rw [ew4] at hc
      rcases List.mem_append.mp hc with hc | hc
      · exact absurd (hw4 _ hc) (by decide)
      rw [e9] at hc
      exact absurd (hys _ hc) (by decide)

/-! ### Noninterference of the allocs group -/

/-- Two lines that are identical except for the first digit group of a
context-header occurrence: a common arbitrary head, then the allocs digit
run (differing), the fixed middle literal, the bytes digit run (shared),
the fixed trailing literal, and a common tail. -/
def allocsSwap (l1 l2 : String) : Prop :=
  ∃ pre n1 n2 m tail,
    n1 ≠ [] ∧ (∀ c ∈ n1, c.isDigit = true) ∧
    n2 ≠ [] ∧ (∀ c ∈ n2, c.isDigit = true) ∧
    m ≠ [] ∧ (∀ c ∈ m, c.isDigit = true) ∧
    l1.data = pre ++ hdrShape n1 m tail ∧ l2.data = pre ++ hdrShape n2 m tail

/-- Line-by-line relation between the two input logs: equal lines, or a
header line with a swapped allocs group. -/
def lineSwap (l1 l2 : String) : Prop := l1 = l2 ∨ allocsSwap l1 l2

/-- The fields of a pending `Memcontext` that the document construction can
observe: `add_memcontext` reads only `bytes` and `callstack`, never `allocs`. -/
def mcEq (m1 m2 : Memcontext) : Prop :=
  m1.bytes = m2.bytes ∧ m1.callstack = m2.callstack

/-- Observational equivalence of two scan states: everything agrees except
possibly the unread `allocs` fields of the pending contexts. -/
def stEq (s1 s2 : ScanState) : Prop :=
  s1.dv = s2.dv ∧ mcEq s1.memcontext s2.memcontext ∧
  List.Forall₂ mcEq s1.memcontexts s2.memcontexts ∧
  s1.in_memcontext = s2.in_memcontext ∧ s1.timestamp = s2.timestamp ∧ s1.min_ts = s2.min_ts

theorem data_mk (l : List Char) : (⟨l⟩ : String).data = l := rfl

theorem comma_mem_hdrShape (n m tail : List Char) : ',' ∈ hdrShape n m tail := by
  unfold hdrShape
  exact List.mem_append.mpr (Or.inr (List.mem_append.mpr (Or.inl (by decide))))

theorem add_memcontext_mcEq {m1 m2 : Memcontext} (dv : DataViewer) (e : Int)
    (h : mcEq m1 m2) : add_memcontext dv e m1 = add_memcontext dv e m2 := by
  unfold add_memcontext
  rw [h.1, h.2]

theorem add_memcontexts_cons (dv : DataViewer) (e : Int) (m : Memcontext)
    (ms : List Memcontext) :
    add_memcontexts dv e (m :: ms) = add_memcontexts (add_memcontext dv e m) e ms := rfl

theorem add_memcontexts_congr {ms1 ms2 : List Memcontext} (e : Int)
    (h : List.Forall₂ mcEq ms1 ms2) :
    ∀ dv, add_memcontexts dv e ms1 = add_memcontexts dv e ms2 := by
  induction h with
  | nil => intro dv; rfl
  | cons hx hxs ih =>
    intro dv
    rw [add_memcontexts_cons, add_memcontexts_cons, add_memcontext_mcEq dv e hx]
    exact ih _

theorem forall2_mcEq_append {a1 a2 b1 b2 : List Memcontext}
    (h1 : List.Forall₂ mcEq a1 a2) (h2 : List.Forall₂ mcEq b1 b2) :
    List.Forall₂ mcEq (a1 ++ b1) (a2 ++ b2) := by
  induction h1 with
  | nil => exact h2
  | cons hx hxs ih => exact List.Forall₂.cons hx ih

theorem heapStep_of_dropLit_none {s : ScanState} {l : String}
    (hd : dropLit "HEAP SUMMARY ".data l.data = none) : heapStep s l = .ok s := by
  unfold heapStep
  rw [hd]

theorem heapStep_of_dropLit_some {s : ScanState} {l : String} {rest : List Char}
    (hd : dropLit "HEAP SUMMARY ".data l.data = some rest) :
    heapStep s l =
      match parse_from_str ⟨rest⟩ with
      | some ts =>
        .ok { s with timestamp := ts, min_ts := if s.min_ts == 0 then ts else s.min_ts }
      | none => .error ("Error parsing '" ++ (⟨rest⟩ : String) ++ "'") := by
  unfold heapStep
  rw [hd]

theorem inuseStep_of_dropLit_none {s : ScanState} {l : String}
    (hd : dropLit "    in use: ".data l.data = none) : inuseStep s l = .ok s := by
  unfold inuseStep
  rw [hd]

theorem add_inuse_summary_some {dv : DataViewer} {e : Int} {rest : List Char} {bytes : Nat}
    (hb : findBytes rest = some bytes) :
    add_inuse_summary dv e ⟨rest⟩ =
      some { dv with
        data := alPush2 dv.data "inuse" (Rat.divInt e 3600) (Rat.divInt (bytes : Int) 1000) } := by
  unfold add_inuse_summary
  rw [data_mk, hb]

theorem add_inuse_summary_none {dv : DataViewer} {e : Int} {rest : List Char}
    (hb : findBytes rest = none) :
    add_inuse_summary dv e ⟨rest⟩ = none := by
  unfold add_inuse_summary
  rw [data_mk, hb]

theorem inuseStep_of_dropLit_some {s : ScanState} {l : String} {rest : List Char}
    (hd : dropLit "    in use: ".data l.data = some rest) :
    inuseStep s l =
      match add_inuse_summary s.dv (s.timestamp - s.min_ts) ⟨rest⟩ with
      | some dv₁ =>
        .ok { s with
              dv := add_memcontexts dv₁ (s.timestamp - s.min_ts) s.memcontexts
              memcontexts := [] }
      | none => .error "called Option::unwrap() on a None value" := by
  unfold inuseStep
  rw [hd]

theorem inuseStep_some_some {s : ScanState} {l : String} {rest : List Char} {bytes : Nat}
    (hd : dropLit "    in use: ".data l.data = some rest)
    (hb : findBytes rest = some bytes) :
    inuseStep s l = .ok { s with
      dv := add_memcontexts { s.dv with data := alPush2 s.dv.data "inuse" (Rat.divInt (s.timestamp - s.min_ts) 3600) (Rat.divInt (bytes : Int) 1000) } (s.timestamp - s.min_ts) s.memcontexts
      memcontexts := [] } := by
  rw [inuseStep_of_dropLit_some hd, add_inuse_summary_some hb]

theorem inuseStep_some_none {s : ScanState} {l : String} {rest : List Char}
    (hd : dropLit "    in use: ".data l.data = some rest)
    (hb : findBytes rest = none) :
    inuseStep s l = .error "called Option::unwrap() on a None value" := by
  rw [inuseStep_of_dropLit_some hd, add_inuse_summary_none hb]

theorem step_header {s : ScanState} {l : String} {a b : Nat}
    (hm : headerMatch l = some (a, b)) :
    step s l = heapInuse
      { s with memcontext := { s.memcontext with allocs := a, bytes := b }
               in_memcontext := true } l := by
  unfold step
  rw [hm]

theorem step_no_header {s : ScanState} {l : String} (hm : headerMatch l = none)
    (hi : s.in_memcontext = false) : step s l = heapInuse s l := by
  unfold step
  rw [hm, hi]
  rfl

theorem step_body_blank {s : ScanState} {l : String} (hm : headerMatch l = none)
    (hi : s.in_memcontext = true) (hl : l = "") :
    step s l = .ok { s with
      memcontext := {}
      memcontexts := s.memcontexts ++
        [{ s.memcontext with callstack := s.memcontext.callstack ++ l ++ "\n" }]
      in_memcontext := false } := by
  unfold step
  rw [hm, hi, hl]
  rfl

theorem step_body_text {s : ScanState} {l : String} (hm : headerMatch l = none)
    (hi : s.in_memcontext = true) (hl : (l == "") = false) :
    step s l = .ok { s with
      memcontext := { s.memcontext with callstack := s.memcontext.callstack ++ l ++ "\n" } } := by
  unfold step
  rw [hm, hi, hl]
  rfl

theorem heapStep_congr {s1 s2 : ScanState} (l : String) (h : stEq s1 s2) :
    (∃ e1 e2, heapStep s1 l = .error e1 ∧ heapStep s2 l = .error e2) ∨
    (∃ t1 t2, heapStep s1 l = .ok t1 ∧ heapStep s2 l = .ok t2 ∧ stEq t1 t2) := by
  obtain ⟨hdv, hmc, hms, hin, hts, hmin⟩ := h
  cases hd : dropLit "HEAP SUMMARY ".data l.data with
  | none =>
    exact Or.inr ⟨s1, s2, heapStep_of_dropLit_none hd, heapStep_of_dropLit_none hd,
      hdv, hmc, hms, hin, hts, hmin⟩
  | some rest =>
    cases hp : parse_from_str ⟨rest⟩ with
    | none =>
      have g1 : heapStep s1 l = .error ("Error parsing '" ++ (⟨rest⟩ : String) ++ "'") := by
        rw [heapStep_of_dropLit_some hd, hp]
      have g2 : heapStep s2 l = .error ("Error parsing '" ++ (⟨rest⟩ : String) ++ "'") := by
        rw [heapStep_of_dropLit_some hd, hp]
      exact Or.inl ⟨_, _, g1, g2⟩
    | some ts =>
      have g1 : heapStep s1 l =
          .ok { s1 with timestamp := ts, min_ts := if s1.min_ts == 0 then ts else s1.min_ts } := by
        rw [heapStep_of_dropLit_some hd, hp]
      have g2 : heapStep s2 l =
          .ok { s2 with timestamp := ts, min_ts := if s2.min_ts == 0 then ts else s2.min_ts } := by
        rw [heapStep_of_dropLit_some hd, hp]
      exact Or.inr ⟨_, _, g1, g2, hdv, hmc, hms, hin, rfl, by rw [hmin]⟩

theorem heapStep_swap {s1 s2 : ScanState} {l1 l2 : String} (h : stEq s1 s2)
    (hsw : allocsSwap l1 l2) :
    (∃ e1 e2, heapStep s1 l1 = .error e1 ∧ heapStep s2 l2 = .error e2) ∨
    (∃ t1 t2, heapStep s1 l1 = .ok t1 ∧ heapStep s2 l2 = .ok t2 ∧ stEq t1 t2) := by
  obtain ⟨pre, n1, n2, m, tail, hn1, hn1d, hn2, hn2d, hm, hmd, he1, he2⟩ := hsw
  rcases dropLit_common "HEAP SUMMARY ".data pre (hdrShape n1 m tail) (hdrShape n2 m tail)
      (by decide) (digitStart_hdrShape m tail hn1 hn1d) (digitStart_hdrShape m tail hn2 hn2d)
    with ⟨hd1, hd2⟩ | ⟨u, hd1, hd2⟩
  · exact Or.inr ⟨s1, s2,
      heapStep_of_dropLit_none (by rw [he1]; exact hd1),
      heapStep_of_dropLit_none (by rw [he2]; exact hd2), h⟩
  · have hp1 : parse_from_str ⟨u ++ hdrShape n1 m tail⟩ = none := by
      cases hp : parse_from_str ⟨u ++ hdrShape n1 m tail⟩ with
      | none => rfl
      | some t =>
        exact absurd (List.mem_append.mpr (Or.inr (comma_mem_hdrShape n1 m tail)))
          (parse_from_str_no_comma hp)
    have hp2 : parse_from_str ⟨u ++ hdrShape n2 m tail⟩ = none := by
      cases hp : parse_from_str ⟨u ++ hdrShape n2 m tail⟩ with
      | none => rfl
      | some t =>
        exact absurd (List.mem_append.mpr (Or.inr (comma_mem_hdrShape n2 m tail)))
          (parse_from_str_no_comma hp)
    have g1 : heapStep s1 l1 = .error ("Error parsing '" ++ (⟨u ++ hdrShape n1 m tail⟩ : String) ++ "'") := by
      rw [heapStep_of_dropLit_some (by rw [he1]; exact hd1), hp1]
    have g2 : heapStep s2 l2 = .error ("Error parsing '" ++ (⟨u ++ hdrShape n2 m tail⟩ : String) ++ "'") := by
      rw [heapStep_of_dropLit_some (by rw [he2]; exact hd2), hp2]
    exact Or.inl ⟨_, _, g1, g2⟩

theorem inuseStep_congr {s1 s2 : ScanState} (l : String) (h : stEq s1 s2) :
    (∃ e1 e2, inuseStep s1 l = .error e1 ∧ inuseStep s2 l = .error e2) ∨
    (∃ t1 t2, inuseStep s1 l = .ok t1 ∧ inuseStep s2 l = .ok t2 ∧ stEq t1 t2) := by
  obtain ⟨hdv, hmc, hms, hin, hts, hmin⟩ := h
  cases hd : dropLit "    in use: ".data l.data with
  | none =>
    exact Or.inr ⟨s1, s2, inuseStep_of_dropLit_none hd, inuseStep_of_dropLit_none hd,
      hdv, hmc, hms, hin, hts, hmin⟩
  | some rest =>
    cases hb : findBytes rest with
    | none => exact Or.inl ⟨_, _, inuseStep_some_none hd hb, inuseStep_some_none hd hb⟩
    | some bytes =>
      have hdvc : add_memcontexts { s1.dv with data := alPush2 s1.dv.data "inuse" (Rat.divInt (s1.timestamp - s1.min_ts) 3600) (Rat.divInt (bytes : Int) 1000) } (s1.timestamp - s1.min_ts) s1.memcontexts =
          add_memcontexts { s2.dv with data := alPush2 s2.dv.data "inuse" (Rat.divInt (s2.timestamp - s2.min_ts) 3600) (Rat.divInt (bytes : Int) 1000) } (s2.timestamp - s2.min_ts) s2.memcontexts := by
        rw [hdv, hts, hmin]
        exact add_memcontexts_congr _ hms _
      exact Or.inr ⟨_, _, inuseStep_some_some hd hb, inuseStep_some_some hd hb,
        hdvc, hmc, List.Forall₂.nil, hin, hts, hmin⟩

theorem inuseStep_swap {s1 s2 : ScanState} {l1 l2 : String} (h : stEq s1 s2)
    (hsw : allocsSwap l1 l2) :
    (∃ e1 e2, inuseStep s1 l1 = .error e1 ∧ inuseStep s2 l2 = .error e2) ∨
    (∃ t1 t2, inuseStep s1 l1 = .ok t1 ∧ inuseStep s2 l2 = .ok t2 ∧ stEq t1 t2) := by
  obtain ⟨hdv, hmc, hms, hin, hts, hmin⟩ := h
  obtain ⟨pre, n1, n2, m, tail, hn1, hn1d, hn2, hn2d, hm, hmd, he1, he2⟩ := hsw
  rcases dropLit_common "    in use: ".data pre (hdrShape n1 m tail) (hdrShape n2 m tail)
      (by decide) (digitStart_hdrShape m tail hn1 hn1d) (digitStart_hdrShape m tail hn2 hn2d)
    with ⟨hd1, hd2⟩ | ⟨u, hd1, hd2⟩
  · exact Or.inr ⟨s1, s2,
      inuseStep_of_dropLit_none (by rw [he1]; exact hd1),
      inuseStep_of_dropLit_none (by rw [he2]; exact hd2),
      hdv, hmc, hms, hin, hts, hmin⟩
  · have hd1' : dropLit "    in use: ".data l1.data = some (u ++ hdrShape n1 m tail) := by
      rw [he1]; exact hd1
    have hd2' : dropLit "    in use: ".data l2.data = some (u ++ hdrShape n2 m tail) := by
      rw [he2]; exact hd2
    have hfb : findBytes (u ++ hdrShape n1 m tail) = findBytes (u ++ hdrShape n2 m tail) :=
      findBytes_swap u tail hn1 hn1d hn2 hn2d hm hmd
    cases hb : findBytes (u ++ hdrShape n1 m tail) with
    | none =>
      have hb2 : findBytes (u ++ hdrShape n2 m tail) = none := by rw [← hfb]; exact hb
      exact Or.inl ⟨_, _, inuseStep_some_none hd1' hb, inuseStep_some_none hd2' hb2⟩
    | some bytes =>
      have hb2 : findBytes (u ++ hdrShape n2 m tail) = some bytes := by rw [← hfb]; exact hb
      have hdvc : add_memcontexts { s1.dv with data := alPush2 s1.dv.data "inuse" (Rat.divInt (s1.timestamp - s1.min_ts) 3600) (Rat.divInt (bytes : Int) 1000) } (s1.timestamp - s1.min_ts) s1.memcontexts =
          add_memcontexts { s2.dv with data := alPush2 s2.dv.data "inuse" (Rat.divInt (s2.timestamp - s2.min_ts) 3600) (Rat.divInt (bytes : Int) 1000) } (s2.timestamp - s2.min_ts) s2.memcontexts := by
        rw [hdv, hts, hmin]
        exact add_memcontexts_congr _ hms _
      exact Or.inr ⟨_, _, inuseStep_some_some hd1' hb, inuseStep_some_some hd2' hb2,
        hdvc, hmc, List.Forall₂.nil, hin, hts, hmin⟩

theorem heapInuse_cases {s1 s2 : ScanState} {l1 l2 : String}
    (hh : (∃ e1 e2, heapStep s1 l1 = .error e1 ∧ heapStep s2 l2 = .error e2) ∨
      (∃ t1 t2, heapStep s1 l1 = .ok t1 ∧ heapStep s2 l2 = .ok t2 ∧ stEq t1 t2))
    (hi : ∀ t1 t2, stEq t1 t2 →
      (∃ e1 e2, inuseStep t1 l1 = .error e1 ∧ inuseStep t2 l2 = .error e2) ∨
      (∃ u1 u2, inuseStep t1 l1 = .ok u1 ∧ inuseStep t2 l2 = .ok u2 ∧ stEq u1 u2)) :
    (∃ e1 e2, heapInuse s1 l1 = .error e1 ∧ heapInuse s2 l2 = .error e2) ∨
    (∃ u1 u2, heapInuse s1 l1 = .ok u1 ∧ heapInuse s2 l2 = .ok u2 ∧ stEq u1 u2) := by
  rcases hh with ⟨e1, e2, h1, h2⟩ | ⟨t1, t2, h1, h2, hst⟩
  · refine Or.inl ⟨e1, e2, ?_, ?_⟩
    · unfold heapInuse; rw [h1]
    · unfold heapInuse; rw [h2]
  · have g1 : heapInuse s1 l1 = inuseStep t1 l1 := by unfold heapInuse; rw [h1]
    have g2 : heapInuse s2 l2 = inuseStep t2 l2 := by unfold heapInuse; rw [h2]
    rw [g1, g2]
    exact hi t1 t2 hst

theorem heapInuse_congr {s1 s2 : ScanState} (l : String) (h : stEq s1 s2) :
    (∃ e1 e2, heapInuse s1 l = .error e1 ∧ heapInuse s2 l = .error e2) ∨
    (∃ u1 u2, heapInuse s1 l = .ok u1 ∧ heapInuse s2 l = .ok u2 ∧ stEq u1 u2) :=
  heapInuse_cases (heapStep_congr l h) (fun _ _ hst => inuseStep_congr l hst)

theorem heapInuse_swap {s1 s2 : ScanState} {l1 l2 : String} (h : stEq s1 s2)
    (hsw : allocsSwap l1 l2) :
    (∃ e1 e2, heapInuse s1 l1 = .error e1 ∧ heapInuse s2 l2 = .error e2) ∨
    (∃ u1 u2, heapInuse s1 l1 = .ok u1 ∧ heapInuse s2 l2 = .ok u2 ∧ stEq u1 u2) :=
  heapInuse_cases (heapStep_swap h hsw) (fun _ _ hst => inuseStep_swap hst hsw)

theorem headerMatch_swap {l1 l2 : String} (hsw : allocsSwap l1 l2) :
    ∃ a1 a2 b, headerMatch l1 = some (a1, b) ∧ headerMatch l2 = some (a2, b) := by
  obtain ⟨pre, n1, n2, m, tail, hn1, hn1d, hn2, hn2d, hm, hmd, he1, he2⟩ := hsw
  obtain ⟨a1, a2, b, h1, h2⟩ := findHeader_swap pre tail hn1 hn1d hn2 hn2d hm hmd
  exact ⟨a1, a2, b, by unfold headerMatch; rw [he1]; exact h1,
    by unfold headerMatch; rw [he2]; exact h2⟩

theorem step_congr {s1 s2 : ScanState} (l : String) (h : stEq s1 s2) :
    (∃ e1 e2, step s1 l = .error e1 ∧ step s2 l = .error e2) ∨
    (∃ t1 t2, step s1 l = .ok t1 ∧ step s2 l = .ok t2 ∧ stEq t1 t2) := by
  obtain ⟨hdv, hmc, hms, hin, hts, hmin⟩ := h
  cases hm : headerMatch l with
  | some ab =>
    obtain ⟨a, b⟩ := ab
    rw [step_header hm, step_header hm]
    exact heapInuse_congr l ⟨hdv, ⟨rfl, hmc.2⟩, hms, rfl, hts, hmin⟩
  | none =>
    cases hi1 : s1.in_memcontext with
    | false =>
      have hi2 : s2.in_memcontext = false := by rw [← hin]; exact hi1
      rw [step_no_header hm hi1, step_no_header hm hi2]
      exact heapInuse_congr l ⟨hdv, hmc, hms, hin, hts, hmin⟩
    | true =>
      have hi2 : s2.in_memcontext = true := by rw [← hin]; exact hi1
      by_cases hl : l = ""
      · have g1 := step_body_blank hm hi1 hl
        have g2 := step_body_blank hm hi2 hl
        refine Or.inr ⟨_, _, g1, g2, hdv, ⟨rfl, rfl⟩, ?_, rfl, hts, hmin⟩
        exact forall2_mcEq_append hms
          (List.Forall₂.cons ⟨hmc.1, by rw [hmc.2]⟩ List.Forall₂.nil)
      · have hlf : (l == "") = false := by
          cases hq : l == "" with
          | false => rfl
          | true => exact absurd (eq_of_beq hq) hl
        have g1 := step_body_text hm hi1 hlf
        have g2 := step_body_text hm hi2 hlf
        exact Or.inr ⟨_, _, g1, g2, hdv, ⟨hmc.1, by rw [hmc.2]⟩, hms, hin, hts, hmin⟩

theorem step_swap {s1 s2 : ScanState} {l1 l2 : String} (h : stEq s1 s2)
    (hsw : allocsSwap l1 l2) :
    (∃ e1 e2, step s1 l1 = .error e1 ∧ step s2 l2 = .error e2) ∨
    (∃ t1 t2, step s1 l1 = .ok t1 ∧ step s2 l2 = .ok t2 ∧ stEq t1 t2) := by
  obtain ⟨a1, a2, b, h1, h2⟩ := headerMatch_swap hsw
  rw [step_header h1, step_header h2]
  exact heapInuse_swap ⟨h.1, ⟨rfl, h.2.1.2⟩, h.2.2.1, rfl, h.2.2.2.2.1, h.2.2.2.2.2⟩ hsw

theorem scanFrom_swap {L1 L2 : List String} (hsw : List.Forall₂ lineSwap L1 L2) :
    ∀ {s1 s2 : ScanState}, stEq s1 s2 →
    (∃ e1 e2, scanFrom s1 L1 = .error e1 ∧ scanFrom s2 L2 = .error e2) ∨
    (∃ t1 t2, scanFrom s1 L1 = .ok t1 ∧ scanFrom s2 L2 = .ok t2 ∧ stEq t1 t2) := by
  induction hsw with
  | nil => exact fun h => Or.inr ⟨_, _, rfl, rfl, h⟩
  | @cons a b L1' L2' hl hrest ih =>
    intro s1 s2 h
    have hstep : (∃ e1 e2, step s1 a = .error e1 ∧ step s2 b = .error e2) ∨
        (∃ t1 t2, step s1 a = .ok t1 ∧ step s2 b = .ok t2 ∧ stEq t1 t2) := by
      rcases hl with rfl | hsw'
      · exact step_congr a h
      · exact step_swap h hsw'
    rcases hstep with ⟨e1, e2, he1, he2⟩ | ⟨t1, t2, ht1, ht2, hst⟩
    · have g1 : scanFrom s1 (a :: L1') = .error e1 := by rw [scanFrom_cons, he1]
      have g2 : scanFrom s2 (b :: L2') = .error e2 := by rw [scanFrom_cons, he2]
      exact Or.inl ⟨e1, e2, g1, g2⟩
    · have g1 : scanFrom s1 (a :: L1') = scanFrom t1 L1' := by rw [scanFrom_cons, ht1]
      have g2 : scanFrom s2 (b :: L2') = scanFrom t2 L2' := by rw [scanFrom_cons, ht2]
      rw [g1, g2]
      exact ih hst

/-- C10: the output document is independent of the allocs values.  For two
input logs that agree line by line except that context-header lines may carry
a different first digit group (the `N` of `"N allocs,"`), whenever both scans
complete, they produce the same document: the allocs capture is parsed and
stored in the pending `Memcontext` but never read when charts or data samples
are built. -/
theorem c10_allocs_noninterference {L1 L2 : List String} {dv1 dv2 : DataViewer}
    (hsw : List.Forall₂ lineSwap L1 L2)
    (h1 : scan L1 = .ok dv1) (h2 : scan L2 = .ok dv2) : dv1 = dv2 := by
  have hinit : stEq ({} : ScanState) ({} : ScanState) :=
    ⟨rfl, ⟨rfl, rfl⟩, List.Forall₂.nil, rfl, rfl, rfl⟩
  rcases scanFrom_swap hsw hinit with ⟨e1, e2, he1, he2⟩ | ⟨t1, t2, ht1, ht2, hst⟩
  · unfold scan scanSt at h1
    rw [he1] at h1
    exact Except.noConfusion h1
  · unfold scan scanSt at h1 h2
    rw [ht1] at h1
    rw [ht2] at h2
    have h1' : (Except.ok t1.dv : Except String DataViewer) = .ok dv1 := h1
    have h2' : (Except.ok t2.dv : Except String DataViewer) = .ok dv2 := h2
    rw [← Except.ok.inj h1', ← Except.ok.inj h2']
    exact hst.1

theorem c10_allocs_noninterference_witness :
    List.Forall₂ lineSwap
      ["12 allocs, 1500 bytes were not free", "at malloc", "",
        "HEAP SUMMARY Mon Jan 01 00:00:00 2024", "    in use: 2000 bytes"]
      ["99 allocs, 1500 bytes were not free", "at malloc", "",
        "HEAP SUMMARY Mon Jan 01 00:00:00 2024", "    in use: 2000 bytes"] ∧
    ({ dataview := DataViewer.new.dataview
       chart := [("inuse", { title := some "Total HEAP Memory in use" }),
         ("1", { title := some "Memory Context with UID:1", description := some "at malloc\n\n" })]
       data := [("inuse", [0, 2]), ("1", [0, Rat.divInt 1500 1000])]
       info := { uid_count := 1, uids := [("at malloc\n\n", 1)] } } : DataViewer) =
    { dataview := DataViewer.new.dataview
      chart := [("inuse", { title := some "Total HEAP Memory in use" }),
        ("1", { title := some "Memory Context with UID:1", description := some "at malloc\n\n" })]
      data := [("inuse", [0, 2]), ("1", [0, Rat.divInt 1500 1000])]
      info := { uid_count := 1, uids := [("at malloc\n\n", 1)] } } := by
  have hsw : List.Forall₂ lineSwap
      ["12 allocs, 1500 bytes were not free", "at malloc", "",
        "HEAP SUMMARY Mon Jan 01 00:00:00 2024", "    in use: 2000 bytes"]
      ["99 allocs, 1500 bytes were not free", "at malloc", "",
        "HEAP SUMMARY Mon Jan 01 00:00:00 2024", "    in use: 2000 bytes"] :=
    List.Forall₂.cons
      (Or.inr ⟨[], "12".data, "99".data, "1500".data, [], by decide, by decide, by decide,
        by decide, by decide, by decide, by decide, by decide⟩)
      (List.Forall₂.cons (Or.inl rfl) (List.Forall₂.cons (Or.inl rfl)
        (List.Forall₂.cons (Or.inl rfl) (List.Forall₂.cons (Or.inl rfl) List.Forall₂.nil))))
  have h1 : scan ["12 allocs, 1500 bytes were not free", "at malloc", "",
      "HEAP SUMMARY Mon Jan 01 00:00:00 2024", "    in use: 2000 bytes"] =
    .ok { dataview := DataViewer.new.dataview
          chart := [("inuse", { title := some "Total HEAP Memory in use" }),
            ("1", { title := some "Memory Context with UID:1", description := some "at malloc\n\n" })]
          data := [("inuse", [0, 2]), ("1", [0, Rat.divInt 1500 1000])]
          info := { uid_count := 1, uids := [("at malloc\n\n", 1)] } } := by decide
  have h2 : scan ["99 allocs, 1500 bytes were not free", "at malloc", "",
      "HEAP SUMMARY Mon Jan 01 00:00:00 2024", "    in use: 2000 bytes"] =
    .ok { dataview := DataViewer.new.dataview
          chart := [("inuse", { title := some "Total HEAP Memory in use" }),
            ("1", { title := some "Memory Context with UID:1", description := some "at malloc\n\n" })]
          data := [("inuse", [0, 2]), ("1", [0, Rat.divInt 1500 1000])]
          info := { uid_count := 1, uids := [("at malloc\n\n", 1)] } } := by decide
  exact ⟨hsw, c10_allocs_noninterference hsw h1 h2⟩

end Memtrace


